import Mathlib

/-! Hashing primitives of `sketch` (`hash.h`).

A shallow embedding of the scalar code of `src/hash.h`.  Values of the C++
unsigned types are natural numbers; every operation that can leave the range
of its type in C++ carries an explicit reduction modulo the word size.

The file has three parts, in this order: the definitions (one per source
function), the lemmas, and the theorems about the code.
-/

namespace sketch.hash

/-- Number of values of `uint64_t`. -/
abbrev U64 : Nat := 2 ^ 64

/-- Number of values of `uint32_t`. -/
abbrev U32 : Nat := 2 ^ 32

/-- Number of values of `__uint128_t`. -/
abbrev U128 : Nat := 2 ^ 128

/-! ## `WangHash` (lines 25-35) -/

namespace WangHash

/-- The 64-bit overload `WangHash::operator()(uint64_t key)`.  The complement
`~key` of a 64-bit word is `2^64 - 1 - key`. -/
def call (key : Nat) : Nat :=
  let key := ((U64 - 1 - key) + (key <<< 21) % U64) % U64
  let key := key ^^^ (key >>> 24)
  let key := ((key + (key <<< 3) % U64) % U64 + (key <<< 8) % U64) % U64
  let key := key ^^^ (key >>> 14)
  let key := ((key + (key <<< 2) % U64) % U64 + (key <<< 4) % U64) % U64
  let key := key ^^^ (key >>> 28)
  let key := (key + (key <<< 31) % U64) % U64
  key

end WangHash

/-! ## Backend 2^89 - 1 (`namespace siam`, lines 116-161) -/

/-- The type `int96_t = std::array<uint32_t, 3>`: limb `i` is `r i`. -/
abbrev int96_t : Type := Fin 3 → Nat

namespace siam

/-- Constant `Prime89_2 = (1 << 25) - 1`. -/
def Prime89_2 : Nat := 2 ^ 25 - 1

/-- Constant `Prime89_21 = (1 << 57) - 1`. -/
def Prime89_21 : Nat := 2 ^ 57 - 1

/-- Function `HIGH(x) = x >> 32`. -/
def HIGH (x : Nat) : Nat := x >>> 32

/-- Function `LOW(x) = x & 0xFFFFFFFF`. -/
def LOW (x : Nat) : Nat := x &&& 0x00000000FFFFFFFF

/-- The three `uint64_t` values that `MultAddPrime89(r, x, a, b)` assigns to
`r[0]`, `r[1]`, `r[2]`, before the store narrows them to `uint32_t`.  All
limbs of `a` are read before the first store to `r`, and `r` itself is never
read. -/
def MultAddPrime89_wide (x : Nat) (a b : int96_t) : Nat × Nat × Nat :=
  let x1 := HIGH x
  let x0 := LOW x
  let c21 := (a 2 * x1) % U64
  let c20 := (a 2 * x0) % U64
  let c11 := (a 1 * x1) % U64
  let c10 := (a 1 * x0) % U64
  let c01 := (a 0 * x1) % U64
  let c00 := (a 0 * x0) % U64
  let d0 := ((c20 >>> 25) + (c11 >>> 25) + (c10 >>> 57) + (c01 >>> 57)) % U64
  let d1 := (c21 <<< 7) % U64
  let d2 := ((c10 &&& Prime89_21) + (c01 &&& Prime89_21)) % U64
  let d3 := ((c20 &&& Prime89_2) + (c11 &&& Prime89_2) + (c21 >>> 57)) % U64
  let s0 := (b 0 + LOW c00 + LOW d0 + LOW d1) % U64
  let carry := HIGH s0
  let s1 := (b 1 + HIGH c00 + HIGH d0 + HIGH d1 + LOW d2 + carry) % U64
  let carry := HIGH s1
  (LOW s0, LOW s1, (b 2 + HIGH d2 + d3 + carry) % U64)

/-- The limbs of `r` after `MultAddPrime89(r, x, a, b)`: each assigned value
narrowed to `uint32_t`. -/
def MultAddPrime89 (x : Nat) (a b : int96_t) : int96_t :=
  let w := MultAddPrime89_wide x a b
  ![w.1 % U32, w.2.1 % U32, w.2.2 % U32]

/-- The integer a three-limb value stands for. -/
def value (l : int96_t) : Nat := l 0 + l 1 * 2 ^ 32 + l 2 * 2 ^ 64

end siam

/-! ## Backend 2^61 - 1 (`namespace nosiam`, lines 189-217) -/

namespace nosiam

/-- The constant `mod = (1 << 61) - 1` of both `mod61` overloads. -/
def mod : Nat := 2 ^ 61 - 1

/-- One pass of the loop body `x = (x >> 61) + (x & mod)` on `__uint128_t`. -/
def fold128 (x : Nat) : Nat := ((x >>> 61) + (x &&& mod)) % U128

/-- One pass of the loop body `x = (x >> 61) + (x & mod)` on `uint64_t`. -/
def fold64 (x : Nat) : Nat := ((x >>> 61) + (x &&& mod)) % U64

/-- The loop `do x = (x >> 61) + (x & mod); while(x > mod * 2);` of
`mod61(__uint128_t)`. -/
def mod61_u128_loop (x : Nat) : Nat :=
  if mod * 2 < fold128 x then mod61_u128_loop (fold128 x) else fold128 x
termination_by x
decreasing_by
  rename_i h
  have e1 : x &&& mod = x % 2 ^ 61 := Nat.and_pow_two_sub_one_eq_mod x 61
  have h1 : fold128 x ≤ x / 2 ^ 61 + x % 2 ^ 61 := by
    unfold fold128
    rw [e1, Nat.shiftRight_eq_div_pow]
    exact Nat.mod_le _ _
  clear e1
  generalize fold128 x = t at h h1 ⊢
  simp only [mod] at h
  omega

/-- The overload `mod61(__uint128_t x)`. -/
def mod61_u128 (x : Nat) : Nat :=
  let x := mod61_u128_loop x
  if x ≥ mod then x - mod else x

/-- The loop `do x = (x >> 61) + (x & mod); while(x > mod * 2);` of
`mod61(uint64_t)`. -/
def mod61_u64_loop (x : Nat) : Nat :=
  if mod * 2 < fold64 x then mod61_u64_loop (fold64 x) else fold64 x
termination_by x
decreasing_by
  rename_i h
  have e1 : x &&& mod = x % 2 ^ 61 := Nat.and_pow_two_sub_one_eq_mod x 61
  have h1 : fold64 x ≤ x / 2 ^ 61 + x % 2 ^ 61 := by
    unfold fold64
    rw [e1, Nat.shiftRight_eq_div_pow]
    exact Nat.mod_le _ _
  clear e1
  generalize fold64 x = t at h h1 ⊢
  simp only [mod] at h
  omega

/-- The overload `mod61(uint64_t x)`. -/
def mod61_u64 (x : Nat) : Nat :=
  let x := mod61_u64_loop x
  if x ≥ mod then x - mod else x

/-- Function `mulmod61`: the product is formed in `__uint128_t`, reduced by the
128-bit overload, and the result narrowed to `uint64_t`. -/
def mulmod61 (x1 x2 : Nat) : Nat :=
  let tmp := x1 % U128
  let tmp := (tmp * x2) % U128
  mod61_u128 tmp % U64

/-- One pass of the `for` loop of `i61hash` at index `i`, on the pair
`(tsum, xp)`. -/
def i61hash_step (x : Nat) (keys : List Nat) (st : Nat × Nat) (i : Nat) : Nat × Nat :=
  let tsum := if i % 8 = 0 then mod61_u64 st.1 else st.1
  let xp := mulmod61 st.2 x
  let tsum := (tsum + mulmod61 xp (keys.getD i 0)) % U64
  (tsum, xp)

/-- Function `i61hash<n>(x, keys)` with `n = keys.length`; the loop runs over
`i = 2, ..., n - 1`. -/
def i61hash (x : Nat) (keys : List Nat) : Nat :=
  let tsum := mulmod61 x (keys.getD 1 0)
  let tsum := (tsum + keys.getD 0 0) % U64
  let xp := x
  let st := (List.range' 2 (keys.length - 2)).foldl (i61hash_step x keys) (tsum, xp)
  mod61_u64 st.1

/-- The value the polynomial with coefficients `c[0], c[1], ...` takes at `x`:
`c[0] + c[1]*x + c[2]*x^2 + ...`, over the integers. -/
def polyEval (x : Nat) : List Nat → Nat
  | [] => 0
  | c :: cs => c + x * polyEval x cs

end nosiam

/-! ## Binary operations (`namespace op`, lines 341-368) -/

namespace op

/-- Scalar `op::multiplies<uint64_t>`. -/
def multiplies (x y : Nat) : Nat := (x * y) % U64

/-- Scalar `op::plus<uint64_t>`. -/
def plus (x y : Nat) : Nat := (x + y) % U64

/-- Scalar `op::bit_xor<uint64_t>`. -/
def bit_xor (x y : Nat) : Nat := x ^^^ y

end op

/-! ## Multiplicative inverses (`namespace multinv`, lines 369-416) -/

namespace multinv

/-- Function `f64(x, y) = y * (2 - y * x)` in wrapping 64-bit arithmetic. -/
def f64 (x y : Nat) : Nat := (y * ((2 + (U64 - (y * x) % U64)) % U64)) % U64

/-- Function `findMultInverse64`. -/
def findMultInverse64 (x : Nat) : Nat :=
  let y := ((3 * x) % U64) ^^^ 2
  let y := f64 x y
  let y := f64 x y
  let y := f64 x y
  let y := f64 x y
  y

end multinv

/-- Function `Rot<n, left>::operator()(T val)` at `T = uint64_t`.  The source
requires `n < 64`; for `n = 0` its shift by `64 - n` is undefined, so the
definition stands for the code when `1 <= n <= 63`. -/
def Rot (n : Nat) (left : Bool) (val : Nat) : Nat :=
  if left then ((val <<< n) % U64) ^^^ (val >>> (64 - n))
  else (val >>> n) ^^^ ((val <<< (64 - n)) % U64)

/-- The types that instantiate the parameters `Operation` and
`InverseOperation` of `InvH`. -/
inductive Operation where
  | multiplies : Operation
  | plus : Operation
  | bit_xor : Operation
  | Rot (n : Nat) (left : Bool) : Operation
deriving DecidableEq, Repr

/-- The two-argument call `op(h, seed)` of an operation object.  A `Rot`
ignores its second argument. -/
def Operation.call : Operation → Nat → Nat → Nat
  | .multiplies, x, y => op.multiplies x y
  | .plus, x, y => op.plus x y
  | .bit_xor, x, y => op.bit_xor x y
  | .Rot n left, val, _ => sketch.hash.Rot n left val

/-- The functor `multinv::Inverse64<T>`: specialised for `op::multiplies` and
`op::plus`, the identity for every other `T`. -/
def multinv.Inverse64 : Operation → Nat → Nat
  | .multiplies, x => multinv.findMultInverse64 x
  | .plus, x => ((U64 - 1) - x + 1) % U64
  | _, x => x

/-- The class template `InvH<Operation, InverseOperation>`. -/
structure InvH where
  seed_ : Nat
  inverse_ : Nat
  op : Operation
  iop : Operation
deriving Repr

/-- The constructor `InvH(uint64_t seed)`: the seed gets its low bit set
exactly when `Operation` is `op::multiplies<uint64_t>`. -/
def InvH.new (op iop : Operation) (seed : Nat) : InvH :=
  let seed_ := seed ||| (if op = Operation.multiplies then 1 else 0)
  { seed_ := seed_, inverse_ := multinv.Inverse64 op seed_, op := op, iop := iop }

/-- Method `InvH::operator()(uint64_t h)`. -/
def InvH.call (self : InvH) (h : Nat) : Nat := self.op.call h self.seed_

/-- Method `InvH::inverse(uint64_t hv)`. -/
def InvH.inverse (self : InvH) (hv : Nat) : Nat := self.iop.call hv self.inverse_

/-- Alias `InvXor = InvH<op::bit_xor<uint64_t>>`. -/
def InvXor (seed : Nat) : InvH := InvH.new .bit_xor .bit_xor seed

/-- Alias `InvMul = InvH<op::multiplies<uint64_t>>`. -/
def InvMul (seed : Nat) : InvH := InvH.new .multiplies .multiplies seed

/-- Alias `InvAdd = InvH<op::plus<uint64_t>>`. -/
def InvAdd (seed : Nat) : InvH := InvH.new .plus .plus seed

/-- Alias `RotN<n> = InvH<RotL<n>, RotR<n>>`. -/
def RotN (n : Nat) (seed : Nat) : InvH := InvH.new (.Rot n true) (.Rot n false) seed

/-- The class template `FusedReversible<InvH1, InvH2>`. -/
structure FusedReversible where
  op1 : InvH
  op2 : InvH
deriving Repr

/-- The constructor `FusedReversible(seed1, seed2)`. -/
def FusedReversible.new (InvH1 InvH2 : Nat → InvH) (seed1 seed2 : Nat) : FusedReversible :=
  { op1 := InvH1 seed1, op2 := InvH2 seed2 }

/-- Method `FusedReversible::operator()`. -/
def FusedReversible.call (self : FusedReversible) (h : Nat) : Nat :=
  let h := self.op1.call h
  let h := self.op2.call h
  h

/-- Method `FusedReversible::inverse`. -/
def FusedReversible.inverse (self : FusedReversible) (hv : Nat) : Nat :=
  self.op1.inverse (self.op2.inverse hv)

/-- The class template `FusedReversible3<InvH1, InvH2, InvH3>`. -/
structure FusedReversible3 where
  op1 : InvH
  op2 : InvH
  op3 : InvH
deriving Repr

/-- The constructor `FusedReversible3(seed1, seed2)`; the third seed is
`(seed1 * seed2 + seed2) | 1` in 64-bit arithmetic. -/
def FusedReversible3.new (InvH1 InvH2 InvH3 : Nat → InvH) (seed1 seed2 : Nat) :
    FusedReversible3 :=
  { op1 := InvH1 seed1, op2 := InvH2 seed2,
    op3 := InvH3 ((((seed1 * seed2) % U64 + seed2) % U64) ||| 1) }

/-- Method `FusedReversible3::operator()`. -/
def FusedReversible3.call (self : FusedReversible3) (h : Nat) : Nat :=
  self.op3.call (self.op2.call (self.op1.call h))

/-- Method `FusedReversible3::inverse`. -/
def FusedReversible3.inverse (self : FusedReversible3) (hv : Nat) : Nat :=
  self.op1.inverse (self.op2.inverse (self.op3.inverse hv))

/-- The constructor of `XorMultiply`. -/
def XorMultiply (seed1 seed2 : Nat) : FusedReversible :=
  FusedReversible.new InvXor InvMul seed1 seed2

/-- The constructor of `MultiplyAdd`. -/
def MultiplyAdd (seed1 seed2 : Nat) : FusedReversible :=
  FusedReversible.new InvMul InvAdd seed1 seed2

/-- The constructor of `MultiplyAddXor`. -/
def MultiplyAddXor (seed1 seed2 : Nat) : FusedReversible3 :=
  FusedReversible3.new InvMul InvAdd InvXor seed1 seed2

/-- The constructor of `MultiplyAddXoRot<shift>`. -/
def MultiplyAddXoRot (shift : Nat) (seed1 seed2 : Nat) : FusedReversible3 :=
  FusedReversible3.new InvMul InvXor (RotN shift) seed1 seed2

/-- The class template `RecursiveReversibleHash<HashType>`: the vector `v_`
together with the two methods of `HashType` that the class calls. -/
structure RecursiveReversibleHash (HashType : Type) where
  v_ : List HashType
  hashCall : HashType → Nat → Nat
  hashInverse : HashType → Nat → Nat

/-- Method `RecursiveReversibleHash::operator()`: `std::for_each` from
`v_.begin()` to `v_.end()`. -/
def RecursiveReversibleHash.call {HashType : Type} (self : RecursiveReversibleHash HashType)
    (v : Nat) : Nat :=
  self.v_.foldl (fun v hash => self.hashCall hash v) v

/-- Method `RecursiveReversibleHash::inverse`: `std::for_each` from
`v_.rbegin()` to `v_.rend()`. -/
def RecursiveReversibleHash.inverse {HashType : Type} (self : RecursiveReversibleHash HashType)
    (hv : Nat) : Nat :=
  self.v_.reverse.foldl (fun hv hash => self.hashInverse hash hv) hv

/-- The class `XorMultiplyNVec` holding one `XorMultiply` per seed pair. -/
def XorMultiplyNVec (seeds : List (Nat × Nat)) : RecursiveReversibleHash FusedReversible :=
  { v_ := seeds.map (fun s => XorMultiply s.1 s.2),
    hashCall := FusedReversible.call, hashInverse := FusedReversible.inverse }

/-- The class `MultiplyAddNVec` holding one `MultiplyAdd` per seed pair. -/
def MultiplyAddNVec (seeds : List (Nat × Nat)) : RecursiveReversibleHash FusedReversible :=
  { v_ := seeds.map (fun s => MultiplyAdd s.1 s.2),
    hashCall := FusedReversible.call, hashInverse := FusedReversible.inverse }

/-- The class `MultiplyAddXorNVec` holding one `MultiplyAddXor` per seed pair. -/
def MultiplyAddXorNVec (seeds : List (Nat × Nat)) : RecursiveReversibleHash FusedReversible3 :=
  { v_ := seeds.map (fun s => MultiplyAddXor s.1 s.2),
    hashCall := FusedReversible3.call, hashInverse := FusedReversible3.inverse }

/-- The class `MultiplyAddXoRotNVec<shift>` holding one `MultiplyAddXoRot<shift>`
per seed pair. -/
def MultiplyAddXoRotNVec (shift : Nat) (seeds : List (Nat × Nat)) :
    RecursiveReversibleHash FusedReversible3 :=
  { v_ := seeds.map (fun s => MultiplyAddXoRot shift s.1 s.2),
    hashCall := FusedReversible3.call, hashInverse := FusedReversible3.inverse }

/-! ## `WangHash`, 32-bit and vector overloads (lines 37-67) -/

/-- Modelled from the spec: the register type `Type`/`VType` of
`vec::SIMDTypes<uint64_t>` (`vec/vec.h`, not part of the sources at hand), a
register of `W` lanes of 64-bit integers; lane `i` of `v` is `v i`. -/
abbrev VType (W : Nat) : Type := Fin W → Nat

namespace Space

/-- Modelled from the spec: `Space::add` of `vec/vec.h`, addition in every
lane with 64-bit wraparound. -/
def add {W : Nat} (a b : VType W) : VType W := fun i => (a i + b i) % U64

/-- Modelled from the spec: `Space::slli` of `vec/vec.h`, shift left by a
constant in every lane with 64-bit wraparound. -/
def slli {W : Nat} (a : VType W) (n : Nat) : VType W := fun i => (a i <<< n) % U64

/-- Modelled from the spec: `Space::srli` of `vec/vec.h`, logical shift right
by a constant in every lane. -/
def srli {W : Nat} (a : VType W) (n : Nat) : VType W := fun i => a i >>> n

/-- Modelled from the spec: the operator `^` on registers, xor in every
lane. -/
def xor_fn {W : Nat} (a b : VType W) : VType W := fun i => a i ^^^ b i

/-- Modelled from the spec: the operator `~` on registers, the 64-bit
complement `2^64 - 1 - x` in every lane. -/
def not_fn {W : Nat} (a : VType W) : VType W := fun i => U64 - 1 - a i

end Space

namespace WangHash

/-- The 32-bit overload `WangHash::operator()(uint32_t key)`.  The complement
of a 32-bit word `y` is `2^32 - 1 - y`. -/
def call32 (key : Nat) : Nat :=
  let key := (key + (U32 - 1 - (key <<< 15) % U32)) % U32
  let key := key ^^^ (key >>> 10)
  let key := (key + (key <<< 3) % U32) % U32
  let key := key ^^^ (key >>> 6)
  let key := (key + (U32 - 1 - (key <<< 11) % U32)) % U32
  let key := key ^^^ (key >>> 16)
  key

/-- The vector overload `WangHash::operator()(Type element)`. -/
def call_Type {W : Nat} (element : VType W) : VType W :=
  let key := Space.add (Space.slli element 21) (Space.not_fn element)
  let key := Space.xor_fn (Space.srli key 24) key
  let key := Space.add (Space.add (Space.slli key 3) (Space.slli key 8)) key
  let key := Space.xor_fn key (Space.srli key 14)
  let key := Space.add (Space.add (Space.slli key 2) (Space.slli key 4)) key
  let key := Space.xor_fn key (Space.srli key 28)
  let key := Space.add (Space.slli key 31) key
  key

/-- The overload `WangHash::operator()(__m128i key)`, two lanes of 64 bits;
`_mm_add_epi64`, `_mm_slli_epi64` and `_mm_srli_epi64` are the lane-wise
64-bit add and shifts. -/
def call_m128i (key : VType 2) : VType 2 :=
  let key := Space.add (Space.not_fn key) (Space.slli key 21)
  let key := Space.xor_fn key (Space.srli key 24)
  let key := Space.add key (Space.add (Space.slli key 3) (Space.slli key 8))
  let key := Space.xor_fn key (Space.srli key 14)
  let key := Space.add (Space.add key (Space.slli key 2)) (Space.slli key 4)
  let key := Space.xor_fn key (Space.srli key 28)
  let key := Space.add (Space.slli key 31) key
  key

end WangHash

/-! ## `pcg32` (lines 73-96) -/

/-- The struct `pcg32_random_t`. -/
structure pcg32_random_t where
  state : Nat
  inc : Nat
deriving DecidableEq, Repr

/-- Function `pcg32_random_r`: the returned `uint32_t` and the generator after
the call. -/
def pcg32_random_r (rng : pcg32_random_t) : Nat × pcg32_random_t :=
  let oldstate := rng.state
  let state := ((oldstate * 6364136223846793005) % U64 + rng.inc) % U64
  let xorshifted := (((oldstate >>> 18) ^^^ oldstate) >>> 27) % U32
  let rot := (oldstate >>> 59) % U32
  ((xorshifted >>> rot) ||| ((xorshifted <<< (((U32 - rot) % U32) &&& 31)) % U32),
    { state := state, inc := rng.inc })

namespace PCGen

/-- The constructor `PCGen(seed, inc)`. -/
def new (seed inc : Nat) : pcg32_random_t := { state := seed, inc := inc ||| 1 }

/-- Method `PCGen::seed(newseed)`. -/
def seed (self : pcg32_random_t) (newseed : Nat) : pcg32_random_t :=
  { state := newseed, inc := self.inc }

/-- Method `PCGen::operator()()`. -/
def call (self : pcg32_random_t) : Nat × pcg32_random_t := pcg32_random_r self

/-- Method `PCGen::make_u64`, the expression
`(uint64_t(this->operator()()) << 32) | this->operator()()`.  C++ does not
order the two calls of `operator()` that are the operands of `|`, so the order
is an argument: with `leftFirst = true` the call in the left operand is made
first, with `leftFirst = false` the call in the right operand is made first.
In both cases `l` is the value of the left operand's call and `r` that of the
right operand's call. -/
def make_u64 (leftFirst : Bool) (self : pcg32_random_t) : Nat × pcg32_random_t :=
  if leftFirst then
    let l := call self
    let r := call l.2
    (((l.1 <<< 32) % U64) ||| r.1, r.2)
  else
    let r := call self
    let l := call r.2
    (((l.1 <<< 32) % U64) ||| r.1, l.2)

/-- The generator states that the interface of `PCGen` can produce: the
constructor, then any sequence of `seed`, `operator()` and `make_u64`, the
latter with either order of its two calls. -/
inductive Reachable : pcg32_random_t → Prop
  | new (seed inc : Nat) : seed < U64 → inc < U64 → Reachable (PCGen.new seed inc)
  | seed (rng : pcg32_random_t) (newseed : Nat) :
      Reachable rng → newseed < U64 → Reachable (PCGen.seed rng newseed)
  | call (rng : pcg32_random_t) : Reachable rng → Reachable (PCGen.call rng).2
  | make_u64 (leftFirst : Bool) (rng : pcg32_random_t) :
      Reachable rng → Reachable (PCGen.make_u64 leftFirst rng).2

end PCGen

namespace siam

/-- Constant `Prime89_0 = (1 << 32) - 1`. -/
def Prime89_0 : Nat := 2 ^ 32 - 1

/-- Constant `Prime89_1 = (1 << 32) - 1`. -/
def Prime89_1 : Nat := 2 ^ 32 - 1

/-- Function `Mod64Prime89`.  The subtraction `r0 - Prime89_0` is only reached
when `r0 >= Prime89_0`. -/
def Mod64Prime89 (r : int96_t) : Nat :=
  let r2 := r 2
  let r1 := r 1
  let r0 := (r 0 + (r2 >>> 25)) % U64
  let r2 := r2 &&& Prime89_2
  if r2 = Prime89_2 ∧ r1 = Prime89_1 ∧ r0 ≥ Prime89_0 then r0 - Prime89_0
  else (r0 + (r1 <<< 32) % U64) % U64

end siam

namespace nosiam

/-- The number of passes through the body of the loop of
`mod61(__uint128_t)`: the recursion of `mod61_u128_loop` with a counter. -/
def mod61_u128_folds (x : Nat) : Nat :=
  if mod * 2 < fold128 x then mod61_u128_folds (fold128 x) + 1 else 1
termination_by x
decreasing_by
  rename_i h
  have e1 : x &&& mod = x % 2 ^ 61 := Nat.and_pow_two_sub_one_eq_mod x 61
  have h1 : fold128 x ≤ x / 2 ^ 61 + x % 2 ^ 61 := by
    unfold fold128
    rw [e1, Nat.shiftRight_eq_div_pow]
    exact Nat.mod_le _ _
  clear e1
  generalize fold128 x = t at h h1 ⊢
  simp only [mod] at h
  omega

/-- The number of passes through the body of the loop of `mod61(uint64_t)`:
the recursion of `mod61_u64_loop` with a counter. -/
def mod61_u64_folds (x : Nat) : Nat :=
  if mod * 2 < fold64 x then mod61_u64_folds (fold64 x) + 1 else 1
termination_by x
decreasing_by
  rename_i h
  have e1 : x &&& mod = x % 2 ^ 61 := Nat.and_pow_two_sub_one_eq_mod x 61
  have h1 : fold64 x ≤ x / 2 ^ 61 + x % 2 ^ 61 := by
    unfold fold64
    rw [e1, Nat.shiftRight_eq_div_pow]
    exact Nat.mod_le _ _
  clear e1
  generalize fold64 x = t at h h1 ⊢
  simp only [mod] at h
  omega

end nosiam

/-! ## Shift-xor (lines 418-466) -/

/-- Functor `RShiftXor<n>`. -/
def RShiftXor (n : Nat) (v : Nat) : Nat := v ^^^ (v >>> n)

/-- Functor `InvRShiftXor<n>`: `enditer = 64 / n`, and the loop body runs for
`i = 1, ..., enditer - 1`. -/
def InvRShiftXor (n : Nat) (v : Nat) : Nat :=
  let enditer := 64 / n
  let ret := v ^^^ (v >>> n)
  Nat.iterate (fun ret => v ^^^ (ret >>> n)) (enditer - 1) ret

/-- Functor `LShiftXor<n>`. -/
def LShiftXor (n : Nat) (v : Nat) : Nat := v ^^^ ((v <<< n) % U64)

/-- Functor `InvLShiftXor<n>`: `enditer = 64 / n`, and the loop body runs for
`i = 1, ..., enditer - 1`. -/
def InvLShiftXor (n : Nat) (v : Nat) : Nat :=
  let enditer := 64 / n
  let ret := v ^^^ ((v <<< n) % U64)
  Nat.iterate (fun ret => v ^^^ ((ret <<< n) % U64)) (enditer - 1) ret

/-! ## K-wise hash: coefficients, accesses, accumulator (lines 100-115, 206-252) -/

/-- Function `make_coefficients<N>` in the configuration of the file
(`NO_USE_SIAM` defined): each of the `N` draws `mt()` of the standard
generator, given here as the list `mt`, is reduced modulo `2^61 - 1`. -/
def make_coefficients (mt : List Nat) : List Nat := mt.map (fun e => e % nosiam.mod)

namespace nosiam

/-- The exact value of the sum `tsum + mulmod61(xp, keys[i])` that pass `i` of
the loop of `i61hash` stores in the 64-bit `tsum`, before it is narrowed to
64 bits; `i61hash_step` stores this value modulo 2^64. -/
def i61hash_sum (x : Nat) (keys : List Nat) (st : Nat × Nat) (i : Nat) : Nat :=
  let tsum := if i % 8 = 0 then mod61_u64 st.1 else st.1
  let xp := mulmod61 st.2 x
  tsum + mulmod61 xp (keys.getD i 0)

/-- One pass of the loop of `i61hash` together with the index at which it
reads `keys`. -/
def i61hash_step_reads (x : Nat) (keys : List Nat) (st : (Nat × Nat) × List Nat) (i : Nat) :
    (Nat × Nat) × List Nat :=
  (i61hash_step x keys st.1 i, st.2 ++ [i])

/-- Function `i61hash<n>(x, keys)` together with the indices at which it reads
`keys`, in program order: `keys[1]`, `keys[0]`, then `keys[i]` in each pass of
the loop. -/
def i61hash_reads (x : Nat) (keys : List Nat) : Nat × List Nat :=
  let tsum := mulmod61 x (keys.getD 1 0)
  let tsum := (tsum + keys.getD 0 0) % U64
  let xp := x
  let st := (List.range' 2 (keys.length - 2)).foldl (i61hash_step_reads x keys)
    ((tsum, xp), [1, 0])
  (mod61_u64 st.1.1, st.2)

end nosiam

/-- Method `KWiseIndependentPolynomialHash<k>::operator()(uint64_t val)` in the
configuration of the file (`NO_USE_SIAM` defined), with `k = coeffs_.length`. -/
def KWiseIndependentPolynomialHash.call (coeffs_ : List Nat) (val : Nat) : Nat :=
  nosiam.i61hash val coeffs_

/-! ## `MurFinHash` (lines 294-339) -/

namespace MurFinHash

/-- Constant `MurFinHash::C1`. -/
def C1 : Nat := 0xff51afd7ed558ccd

/-- Constant `MurFinHash::C2`. -/
def C2 : Nat := 0xc4ceb9fe1a85ec53

/-- The scalar overload `MurFinHash::operator()(uint64_t key)`. -/
def call (key : Nat) : Nat :=
  let key := key ^^^ (key >>> 33)
  let key := (key * C1) % U64
  let key := key ^^^ (key >>> 33)
  let key := (key * C2) % U64
  let key := key ^^^ (key >>> 33)
  key

end MurFinHash

/-- Function `finalize`. -/
def finalize (key : Nat) : Nat := MurFinHash.call key

/-- A pair of functions on 64-bit words that stay within 64 bits and undo each
other in both orders. -/
def Reversible (f g : Nat → Nat) : Prop :=
  ∀ x, x < U64 → f x < U64 ∧ g x < U64 ∧ g (f x) = x ∧ f (g x) = x

end sketch.hash

/-! # Lemmas -/

namespace sketch.hash

theorem testBit_high (x : Nat) (hx : x < U64) (j : Nat) (hj : 64 ≤ j) :
    x.testBit j = false := by
  apply Nat.testBit_lt_two_pow
  exact lt_of_lt_of_le hx (Nat.pow_le_pow_right (by norm_num) hj)

theorem testBit_mod_U64 (x j : Nat) :
    (x % U64).testBit j = (decide (j < 64) && x.testBit j) :=
  Nat.testBit_mod_two_pow x 64 j

theorem xor_mod_two_pow (a b k : Nat) : (a ^^^ b) % 2 ^ k = (a % 2 ^ k) ^^^ (b % 2 ^ k) := by
  apply Nat.eq_of_testBit_eq
  intro i
  simp only [Nat.testBit_mod_two_pow, Nat.testBit_xor]
  cases decide (i < k) <;> simp

theorem xor_lt_U64 (a b : Nat) (ha : a < U64) (hb : b < U64) : a ^^^ b < U64 :=
  Nat.xor_lt_two_pow ha hb

/-! ## Rotations -/

theorem Rot_testBit_left (n x j : Nat) (hn1 : 1 ≤ n) (hn : n ≤ 63) (hx : x < U64) :
    (Rot n true x).testBit j =
      if j < n then x.testBit (j + 64 - n) else if j < 64 then x.testBit (j - n) else false := by
  simp only [Rot, if_true, Nat.testBit_xor, Nat.testBit_shiftRight, Nat.testBit_shiftLeft,
    testBit_mod_U64]
  by_cases h1 : j < n
  · have e : 64 - n + j = j + 64 - n := by omega
    have h2 : j < 64 := by omega
    have h3 : ¬ (j ≥ n) := by omega
    simp [h1, h2, h3, e]
  · have h3 : x.testBit (64 - n + j) = false := testBit_high x hx _ (by omega)
    have h4 : j ≥ n := by omega
    by_cases h2 : j < 64
    · simp [h1, h4, h2, h3]
    · simp [h1, h2, h3]

theorem Rot_testBit_right (n x j : Nat) (hn1 : 1 ≤ n) (hn : n ≤ 63) (hx : x < U64) :
    (Rot n false x).testBit j =
      if j < 64 - n then x.testBit (j + n)
      else if j < 64 then x.testBit (j + n - 64) else false := by
  simp only [Rot, Bool.false_eq_true, if_false, Nat.testBit_xor, Nat.testBit_shiftRight,
    Nat.testBit_shiftLeft, testBit_mod_U64]
  by_cases h1 : j < 64 - n
  · have e : n + j = j + n := by omega
    have h2 : j < 64 := by omega
    have h3 : ¬ (j ≥ 64 - n) := by omega
    simp [h1, h2, h3, e]
  · have h3 : x.testBit (n + j) = false := testBit_high x hx _ (by omega)
    have h4 : j ≥ 64 - n := by omega
    by_cases h2 : j < 64
    · have e : j - (64 - n) = j + n - 64 := by omega
      simp [h1, h4, h2, h3, e]
    · simp [h1, h2, h3]

theorem Rot_lt (n : Nat) (left : Bool) (x : Nat) (hn1 : 1 ≤ n) (hn : n ≤ 63) (hx : x < U64) :
    Rot n left x < U64 := by
  apply Nat.lt_pow_two_of_testBit
  intro i hi
  cases left
  · rw [Rot_testBit_right n x i hn1 hn hx]
    have h1 : ¬ i < 64 - n := by omega
    have h2 : ¬ i < 64 := by omega
    simp [h1, h2]
  · rw [Rot_testBit_left n x i hn1 hn hx]
    have h1 : ¬ i < n := by omega
    have h2 : ¬ i < 64 := by omega
    simp [h1, h2]

theorem Rot_right_left (n x : Nat) (hn1 : 1 ≤ n) (hn : n ≤ 63) (hx : x < U64) :
    Rot n false (Rot n true x) = x := by
  apply Nat.eq_of_testBit_eq
  intro j
  rw [Rot_testBit_right n _ j hn1 hn (Rot_lt n true x hn1 hn hx)]
  by_cases h1 : j < 64 - n
  · rw [if_pos h1, Rot_testBit_left n x _ hn1 hn hx]
    have h3 : j + n < 64 := by omega
    simp [h3]
  · rw [if_neg h1]
    by_cases h2 : j < 64
    · rw [if_pos h2, Rot_testBit_left n x _ hn1 hn hx]
      have h3 : j + n - 64 < n := by omega
      have e : j + n - 64 + 64 - n = j := by omega
      simp [h3, e]
    · rw [if_neg h2]
      exact (testBit_high x hx j (by omega)).symm

theorem Rot_left_right (n x : Nat) (hn1 : 1 ≤ n) (hn : n ≤ 63) (hx : x < U64) :
    Rot n true (Rot n false x) = x := by
  apply Nat.eq_of_testBit_eq
  intro j
  rw [Rot_testBit_left n _ j hn1 hn (Rot_lt n false x hn1 hn hx)]
  by_cases h1 : j < n
  · rw [if_pos h1, Rot_testBit_right n x _ hn1 hn hx]
    have h2 : ¬ (j + 64 - n < 64 - n) := by omega
    have h3 : j + 64 - n < 64 := by omega
    have e : j + 64 - n + n - 64 = j := by omega
    simp [h2, h3, e]
  · rw [if_neg h1]
    by_cases h2 : j < 64
    · rw [if_pos h2, Rot_testBit_right n x _ hn1 hn hx]
      have h3 : j - n < 64 - n := by omega
      have e : j - n + n = j := by omega
      simp [h3, e]
    · rw [if_neg h2]
      exact (testBit_high x hx j (by omega)).symm

/-! ## Newton iteration for the inverse modulo 2^64 -/

namespace multinv

theorem f64_modEq (x y : Nat) :
    ((f64 x y : Nat) : Int) ≡ (y : Int) * (2 - (y : Int) * x) [ZMOD 2 ^ 64] := by
  have hU : ((2 : Int) ^ 64) = ((U64 : Nat) : Int) := by simp [U64]
  have h1 : (y * x) % U64 ≤ U64 := le_of_lt (Nat.mod_lt _ (by norm_num))
  have e : ((2 + (U64 - (y * x) % U64) : Nat) : Int)
      = 2 + ((2 : Int) ^ 64 - ((y * x : Nat) : Int) % 2 ^ 64) := by
    push_cast [Nat.cast_sub h1]
    simp [U64]
  have m1 : (((2 + (U64 - (y * x) % U64)) % U64 : Nat) : Int)
      ≡ ((2 + (U64 - (y * x) % U64) : Nat) : Int) [ZMOD 2 ^ 64] := by
    rw [hU, Int.natCast_mod]
    exact Int.mod_modEq _ _
  have m2 : ((y * x : Nat) : Int) % 2 ^ 64 ≡ (y : Int) * x [ZMOD 2 ^ 64] := by
    push_cast
    exact Int.mod_modEq _ _
  have m3 : (2 : Int) ^ 64 ≡ 0 [ZMOD 2 ^ 64] := by
    simp [Int.ModEq]
  have h2 : (((2 + (U64 - (y * x) % U64)) % U64 : Nat) : Int)
      ≡ 2 - (y : Int) * x [ZMOD 2 ^ 64] := by
    refine m1.trans ?_
    rw [e]
    calc (2 : Int) + (2 ^ 64 - ((y * x : Nat) : Int) % 2 ^ 64)
        ≡ 2 + (0 - (y : Int) * x) [ZMOD 2 ^ 64] := (Int.ModEq.refl 2).add (m3.sub m2)
      _ = 2 - (y : Int) * x := by ring
  have m0 : ((f64 x y : Nat) : Int)
      ≡ ((y * ((2 + (U64 - (y * x) % U64)) % U64) : Nat) : Int) [ZMOD 2 ^ 64] := by
    unfold f64
    rw [hU, Int.natCast_mod]
    exact Int.mod_modEq _ _
  refine m0.trans ?_
  rw [Nat.cast_mul]
  exact (Int.ModEq.refl _).mul h2

/-- One Newton step doubles the number of correct low bits, up to 64. -/
theorem f64_step (x y k j : Nat) (hk : (2 : Int) ^ k ∣ (x : Int) * y - 1)
    (hj : j ≤ 2 * k) (hj64 : j ≤ 64) :
    (2 : Int) ^ j ∣ (x : Int) * (f64 x y : Nat) - 1 := by
  have h64 : (2 : Int) ^ j ∣ 2 ^ 64 := pow_dvd_pow 2 hj64
  have d1 : (2 : Int) ^ j ∣ ((y : Int) * (2 - (y : Int) * x)) - (f64 x y : Nat) :=
    (Int.ModEq.of_dvd h64 (f64_modEq x y)).dvd
  have d2 : (2 : Int) ^ j ∣ ((x : Int) * y - 1) ^ 2 := by
    have d3 : (2 : Int) ^ j ∣ (2 ^ k) ^ 2 := by
      rw [← pow_mul]
      exact pow_dvd_pow 2 (by omega)
    exact d3.trans (pow_dvd_pow_of_dvd hk 2)
  have e : (x : Int) * (f64 x y : Nat) - 1
      = -(((x : Int) * y - 1) ^ 2)
        - x * (((y : Int) * (2 - (y : Int) * x)) - (f64 x y : Nat)) := by
    ring
  rw [e]
  exact dvd_sub (dvd_neg.mpr d2) (Dvd.dvd.mul_left d1 _)

/-- The start value `(3 * x) ^ 2` is an inverse of an odd `x` modulo 2^5. -/
theorem start_value (x : Nat) (hx : x % 2 = 1) :
    (2 : Int) ^ 5 ∣ (x : Int) * ((((3 * x) % U64) ^^^ 2 : Nat) : Int) - 1 := by
  have key : ∀ r : Fin 32, r.val % 2 = 1 →
      (r.val * (((3 * r.val) % 32) ^^^ 2)) % 32 = 1 := by decide
  have hr : x % 32 < 32 := Nat.mod_lt _ (by norm_num)
  have k := key ⟨x % 32, hr⟩ (by simp only; omega)
  simp only at k
  have e1 : ((((3 * x) % U64) ^^^ 2) % 32) = ((3 * (x % 32)) % 32) ^^^ 2 := by
    have h := xor_mod_two_pow ((3 * x) % U64) 2 5
    have a1 : (3 * x) % U64 % 2 ^ 5 = (3 * (x % 32)) % 32 := by simp only [U64]; omega
    have a2 : 2 % 2 ^ 5 = 2 := by norm_num
    rw [a1, a2] at h
    exact h
  have e2 : (x * (((3 * x) % U64) ^^^ 2)) % 32 = 1 := by
    rw [Nat.mul_mod, e1, ← k, Nat.mul_mod (x % 32), Nat.mod_mod]
  have e3 : ((x * (((3 * x) % U64) ^^^ 2) : Nat) : Int) % 32 = 1 := by
    exact_mod_cast e2
  rw [Nat.cast_mul] at e3
  exact Int.dvd_sub_of_emod_eq e3

theorem findMultInverse64_mul (x : Nat) (hx : x % 2 = 1) :
    (x * findMultInverse64 x) % U64 = 1 := by
  have h0 := start_value x hx
  have h1 := f64_step x _ 5 10 h0 (by norm_num) (by norm_num)
  have h2 := f64_step x _ 10 20 h1 (by norm_num) (by norm_num)
  have h3 := f64_step x _ 20 40 h2 (by norm_num) (by norm_num)
  have h4 := f64_step x _ 40 64 h3 (by norm_num) (by norm_num)
  have h5 : ((x * findMultInverse64 x : Nat) : Int) % ((U64 : Nat) : Int) = 1 := by
    rw [Nat.cast_mul]
    have e : ((U64 : Nat) : Int) = 2 ^ 64 := by simp [U64]
    rw [e]
    unfold findMultInverse64
    obtain ⟨m, hm⟩ := h4
    norm_num at hm ⊢
    omega
  exact_mod_cast h5

end multinv

/-! ## Single operations and their composition -/

theorem Reversible.comp {f g f2 g2 : Nat → Nat} (h1 : Reversible f g) (h2 : Reversible f2 g2) :
    Reversible (fun x => f2 (f x)) (fun y => g (g2 y)) := by
  intro x hx
  obtain ⟨a1, _, a3, _⟩ := h1 x hx
  obtain ⟨_, b2, _, b4⟩ := h2 x hx
  obtain ⟨c1, _, c3, _⟩ := h2 (f x) a1
  obtain ⟨_, d2, _, d4⟩ := h1 (g2 x) b2
  refine ⟨c1, d2, ?_, ?_⟩
  · show g (g2 (f2 (f x))) = x
    rw [c3, a3]
  · show f2 (f (g (g2 x))) = x
    rw [d4, b4]

theorem or_one_lt (seed : Nat) (hs : seed < U64) : seed ||| 1 < U64 :=
  Nat.or_lt_two_pow hs (by norm_num)

theorem or_one_odd (seed : Nat) : (seed ||| 1) % 2 = 1 :=
  Nat.or_mod_two_eq_one.mpr (Or.inr rfl)

theorem mul_mul_cancel (x s t : Nat) (hx : x < U64) (h : (s * t) % U64 = 1) :
    ((x * s) % U64 * t) % U64 = x := by
  rw [Nat.mod_mul_mod, Nat.mul_assoc, Nat.mul_mod, h, Nat.mul_one, Nat.mod_mod]
  exact Nat.mod_eq_of_lt hx

theorem InvMul_reversible (seed : Nat) :
    Reversible (InvMul seed).call (InvMul seed).inverse := by
  have h := multinv.findMultInverse64_mul (seed ||| 1) (or_one_odd seed)
  have h2 : (multinv.findMultInverse64 (seed ||| 1) * (seed ||| 1)) % U64 = 1 := by
    rw [Nat.mul_comm]; exact h
  intro x hx
  simp only [InvMul, InvH.new, InvH.call, InvH.inverse, Operation.call, op.multiplies,
    multinv.Inverse64, if_true]
  exact ⟨Nat.mod_lt _ (by norm_num), Nat.mod_lt _ (by norm_num),
    mul_mul_cancel x _ _ hx h, mul_mul_cancel x _ _ hx h2⟩

theorem InvAdd_reversible (seed : Nat) (hs : seed < U64) :
    Reversible (InvAdd seed).call (InvAdd seed).inverse := by
  intro x hx
  simp only [InvAdd, InvH.new, InvH.call, InvH.inverse, Operation.call, op.plus,
    multinv.Inverse64, reduceCtorEq, if_false, Nat.or_zero, U64] at *
  refine ⟨?_, ?_, ?_, ?_⟩ <;> omega

theorem InvXor_reversible (seed : Nat) (hs : seed < U64) :
    Reversible (InvXor seed).call (InvXor seed).inverse := by
  intro x hx
  simp only [InvXor, InvH.new, InvH.call, InvH.inverse, Operation.call, op.bit_xor,
    multinv.Inverse64, reduceCtorEq, if_false, Nat.or_zero]
  exact ⟨xor_lt_U64 x seed hx hs, xor_lt_U64 x seed hx hs,
    Nat.xor_cancel_right seed x, Nat.xor_cancel_right seed x⟩

theorem RotN_reversible (n seed : Nat) (hn1 : 1 ≤ n) (hn : n ≤ 63) :
    Reversible (RotN n seed).call (RotN n seed).inverse := by
  intro x hx
  simp only [RotN, InvH.new, InvH.call, InvH.inverse, Operation.call]
  exact ⟨Rot_lt n true x hn1 hn hx, Rot_lt n false x hn1 hn hx,
    Rot_right_left n x hn1 hn hx, Rot_left_right n x hn1 hn hx⟩

theorem FusedReversible_reversible (r : FusedReversible)
    (h1 : Reversible r.op1.call r.op1.inverse) (h2 : Reversible r.op2.call r.op2.inverse) :
    Reversible r.call r.inverse := by
  intro x hx
  have h := Reversible.comp h1 h2 x hx
  exact h

theorem FusedReversible3_reversible (r : FusedReversible3)
    (h1 : Reversible r.op1.call r.op1.inverse) (h2 : Reversible r.op2.call r.op2.inverse)
    (h3 : Reversible r.op3.call r.op3.inverse) :
    Reversible r.call r.inverse := by
  intro x hx
  have h := Reversible.comp (Reversible.comp h1 h2) h3 x hx
  exact h

theorem XorMultiply_reversible (seed1 seed2 : Nat) (h1 : seed1 < U64) :
    Reversible (XorMultiply seed1 seed2).call (XorMultiply seed1 seed2).inverse :=
  FusedReversible_reversible _ (InvXor_reversible seed1 h1) (InvMul_reversible seed2)

theorem MultiplyAdd_reversible (seed1 seed2 : Nat) (h2 : seed2 < U64) :
    Reversible (MultiplyAdd seed1 seed2).call (MultiplyAdd seed1 seed2).inverse :=
  FusedReversible_reversible _ (InvMul_reversible seed1) (InvAdd_reversible seed2 h2)

theorem MultiplyAddXor_reversible (seed1 seed2 : Nat) (h2 : seed2 < U64) :
    Reversible (MultiplyAddXor seed1 seed2).call (MultiplyAddXor seed1 seed2).inverse :=
  FusedReversible3_reversible _ (InvMul_reversible seed1) (InvAdd_reversible seed2 h2)
    (InvXor_reversible _ (or_one_lt _ (Nat.mod_lt _ (by norm_num))))

theorem MultiplyAddXoRot_reversible (shift seed1 seed2 : Nat) (h2 : seed2 < U64)
    (hs1 : 1 ≤ shift) (hs : shift ≤ 63) :
    Reversible (MultiplyAddXoRot shift seed1 seed2).call
      (MultiplyAddXoRot shift seed1 seed2).inverse :=
  FusedReversible3_reversible _ (InvMul_reversible seed1) (InvXor_reversible seed2 h2)
    (RotN_reversible shift _ hs1 hs)

/-! ## Chains -/

theorem RecursiveReversibleHash.call_cons {H : Type} (h : H) (t : List H)
    (c i : H → Nat → Nat) (x : Nat) :
    (RecursiveReversibleHash.mk (h :: t) c i).call x
      = (RecursiveReversibleHash.mk t c i).call (c h x) := rfl

theorem RecursiveReversibleHash.inverse_cons {H : Type} (h : H) (t : List H)
    (c i : H → Nat → Nat) (y : Nat) :
    (RecursiveReversibleHash.mk (h :: t) c i).inverse y
      = i h ((RecursiveReversibleHash.mk t c i).inverse y) := by
  simp [RecursiveReversibleHash.inverse, List.foldl_append]

theorem RecursiveReversibleHash_reversible {H : Type} (c i : H → Nat → Nat) (v : List H)
    (hv : ∀ h ∈ v, Reversible (c h) (i h)) :
    Reversible (RecursiveReversibleHash.mk v c i).call
      (RecursiveReversibleHash.mk v c i).inverse := by
  induction v with
  | nil => exact fun _ hx => ⟨hx, hx, rfl, rfl⟩
  | cons h t ih =>
    have ht := ih (fun h2 hm => hv h2 (List.mem_cons_of_mem _ hm))
    have hh := hv h (List.mem_cons_self _ _)
    have hc := Reversible.comp hh ht
    intro x hx
    rw [RecursiveReversibleHash.call_cons, RecursiveReversibleHash.inverse_cons,
      RecursiveReversibleHash.call_cons, RecursiveReversibleHash.inverse_cons]
    exact hc x hx

theorem chain_reversible {H : Type} (ctor : Nat → Nat → H) (c i : H → Nat → Nat)
    (seeds : List (Nat × Nat))
    (hs : ∀ s ∈ seeds, s.1 < U64 ∧ s.2 < U64)
    (hc : ∀ s1 s2, s1 < U64 → s2 < U64 → Reversible (c (ctor s1 s2)) (i (ctor s1 s2))) :
    Reversible (RecursiveReversibleHash.mk (seeds.map (fun s => ctor s.1 s.2)) c i).call
      (RecursiveReversibleHash.mk (seeds.map (fun s => ctor s.1 s.2)) c i).inverse := by
  apply RecursiveReversibleHash_reversible
  intro h hm
  obtain ⟨s, hsm, rfl⟩ := List.mem_map.mp hm
  exact hc s.1 s.2 (hs s hsm).1 (hs s hsm).2

/-! ## `WangHash` -/

theorem shiftRight_xor (a b k : Nat) : (a ^^^ b) >>> k = (a >>> k) ^^^ (b >>> k) := by
  apply Nat.eq_of_testBit_eq
  intro i
  simp only [Nat.testBit_xor, Nat.testBit_shiftRight]

theorem xorshift_inj (a b k : Nat) (hk : 0 < k) (h : a ^^^ (a >>> k) = b ^^^ (b >>> k)) :
    a = b := by
  have h1 : (a ^^^ b) ^^^ ((a ^^^ b) >>> k) = 0 := by
    rw [shiftRight_xor]
    apply Nat.eq_of_testBit_eq
    intro i
    have hi := congrArg (fun t => t.testBit i) h
    simp only [Nat.testBit_xor, Nat.testBit_shiftRight, Nat.zero_testBit] at hi ⊢
    revert hi
    cases a.testBit i <;> cases b.testBit i <;> cases a.testBit (k + i) <;>
      cases b.testBit (k + i) <;> simp
  have h2 : a ^^^ b = (a ^^^ b) >>> k := Nat.xor_eq_zero.mp h1
  have h3 : a ^^^ b = 0 := by
    by_contra hne
    have hpos : 0 < a ^^^ b := Nat.pos_of_ne_zero hne
    have hlt : (a ^^^ b) >>> k < a ^^^ b := by
      rw [Nat.shiftRight_eq_div_pow]
      exact Nat.div_lt_self hpos (Nat.one_lt_two_pow (by omega))
    omega
  exact Nat.xor_eq_zero.mp h3

theorem xorshift_lt (a k : Nat) (ha : a < U64) : a ^^^ (a >>> k) < U64 := by
  apply xor_lt_U64 a _ ha
  rw [Nat.shiftRight_eq_div_pow]
  exact lt_of_le_of_lt (Nat.div_le_self _ _) ha

theorem mul_odd_inj (c a b : Nat) (hc : c % 2 = 1) (ha : a < U64) (hb : b < U64)
    (h : (a * c) % U64 = (b * c) % U64) : a = b := by
  have hcop : Nat.gcd U64 c = 1 := by
    have h2 : Nat.Coprime 2 c := (Nat.coprime_two_left).mpr (Nat.odd_iff.mpr hc)
    exact Nat.Coprime.pow_left 64 h2
  have h1 : c * a ≡ c * b [MOD U64] := by
    rw [Nat.mul_comm c a, Nat.mul_comm c b]
    exact h
  have h3 : a ≡ b [MOD U64] := Nat.ModEq.cancel_left_of_coprime hcop h1
  have h4 : a % U64 = b % U64 := h3
  rwa [Nat.mod_eq_of_lt ha, Nat.mod_eq_of_lt hb] at h4

theorem surj_of_inj_lt (n : Nat) (g : Nat → Nat) (hlt : ∀ x, g x < n)
    (hinj : ∀ a b, a < n → b < n → g a = g b → a = b) (y : Nat) (hy : y < n) :
    ∃ x, x < n ∧ g x = y := by
  let f : Fin n → Fin n := fun x => ⟨g x.val, hlt x.val⟩
  have hf : Function.Injective f := by
    intro a b hab
    have h := congrArg Fin.val hab
    exact Fin.ext (hinj a.val b.val a.isLt b.isLt h)
  obtain ⟨x, hx⟩ := (Finite.injective_iff_surjective.mp hf) ⟨y, hy⟩
  exact ⟨x.val, x.isLt, congrArg Fin.val hx⟩

namespace WangHash

theorem step1_eq (a : Nat) (ha : a < U64) :
    (((U64 - 1 - a) + (a <<< 21) % U64) % U64 + 1) % U64 = (a * 2097151) % U64 := by
  simp only [Nat.shiftLeft_eq, U64] at *
  omega

theorem step3_eq (a : Nat) :
    ((a + (a <<< 3) % U64) % U64 + (a <<< 8) % U64) % U64 = (a * 265) % U64 := by
  simp only [Nat.shiftLeft_eq, U64] at *
  omega

theorem step5_eq (a : Nat) :
    ((a + (a <<< 2) % U64) % U64 + (a <<< 4) % U64) % U64 = (a * 21) % U64 := by
  simp only [Nat.shiftLeft_eq, U64] at *
  omega

theorem step7_eq (a : Nat) :
    (a + (a <<< 31) % U64) % U64 = (a * 2147483649) % U64 := by
  simp only [Nat.shiftLeft_eq, U64] at *
  omega

theorem step1_inj (a b : Nat) (ha : a < U64) (hb : b < U64)
    (h : ((U64 - 1 - a) + (a <<< 21) % U64) % U64 = ((U64 - 1 - b) + (b <<< 21) % U64) % U64) :
    a = b := by
  apply mul_odd_inj 2097151 a b (by norm_num) ha hb
  rw [← step1_eq a ha, ← step1_eq b hb, h]

theorem call_lt (a : Nat) : call a < U64 := Nat.mod_lt _ (by norm_num)

theorem call_inj (a b : Nat) (ha : a < U64) (hb : b < U64) (h : call a = call b) : a = b := by
  have hU : 0 < U64 := by norm_num
  simp only [call] at h
  rw [step7_eq, step7_eq] at h
  have h6 := mul_odd_inj 2147483649 _ _ (by norm_num)
    (xorshift_lt _ 28 (Nat.mod_lt _ hU)) (xorshift_lt _ 28 (Nat.mod_lt _ hU)) h
  have h5 := xorshift_inj _ _ 28 (by norm_num) h6
  rw [step5_eq, step5_eq] at h5
  have h4 := mul_odd_inj 21 _ _ (by norm_num)
    (xorshift_lt _ 14 (Nat.mod_lt _ hU)) (xorshift_lt _ 14 (Nat.mod_lt _ hU)) h5
  have h3 := xorshift_inj _ _ 14 (by norm_num) h4
  rw [step3_eq, step3_eq] at h3
  have h2 := mul_odd_inj 265 _ _ (by norm_num)
    (xorshift_lt _ 24 (Nat.mod_lt _ hU)) (xorshift_lt _ 24 (Nat.mod_lt _ hU)) h3
  have h1 := xorshift_inj _ _ 24 (by norm_num) h2
  exact step1_inj a b ha hb h1

theorem call_surj (y : Nat) (hy : y < U64) : ∃ x, x < U64 ∧ call x = y :=
  surj_of_inj_lt U64 call call_lt call_inj y hy

end WangHash

/-! ## Reduction modulo 2^61 - 1 -/

namespace nosiam

theorem fold64_eq (x : Nat) (hx : x < U64) : fold64 x = x / 2 ^ 61 + x % 2 ^ 61 := by
  have e1 : x &&& mod = x % 2 ^ 61 := Nat.and_pow_two_sub_one_eq_mod x 61
  unfold fold64
  rw [e1, Nat.shiftRight_eq_div_pow]
  apply Nat.mod_eq_of_lt
  simp only [U64] at *
  omega

theorem fold128_eq (x : Nat) (hx : x < U128) : fold128 x = x / 2 ^ 61 + x % 2 ^ 61 := by
  have e1 : x &&& mod = x % 2 ^ 61 := Nat.and_pow_two_sub_one_eq_mod x 61
  unfold fold128
  rw [e1, Nat.shiftRight_eq_div_pow]
  apply Nat.mod_eq_of_lt
  simp only [U128] at *
  omega

theorem mod61_u64_loop_eq (x : Nat) (hx : x < U64) : mod61_u64_loop x = fold64 x := by
  have h := fold64_eq x hx
  rw [mod61_u64_loop]
  apply if_neg
  rw [h]
  simp only [mod, U64] at *
  omega

/-- The 64-bit overload returns a canonical residue. -/
theorem mod61_u64_lt (x : Nat) (hx : x < U64) : mod61_u64 x < mod := by
  have h := fold64_eq x hx
  unfold mod61_u64
  rw [mod61_u64_loop_eq x hx, h]
  simp only [mod, U64] at *
  split <;> omega

/-- The 64-bit overload keeps the residue class. -/
theorem mod61_u64_mod (x : Nat) (hx : x < U64) : mod61_u64 x % mod = x % mod := by
  have h := fold64_eq x hx
  unfold mod61_u64
  rw [mod61_u64_loop_eq x hx, h]
  simp only [mod, U64] at *
  split <;> omega

theorem mod61_u128_loop_of_le (x : Nat) (h : fold128 x ≤ mod * 2) :
    mod61_u128_loop x = fold128 x := by
  rw [mod61_u128_loop]
  exact if_neg (Nat.not_lt.mpr h)

theorem mod61_u128_loop_spec (x : Nat) (hx : x < U128) :
    mod61_u128_loop x ≤ mod * 2 ∧ mod61_u128_loop x % mod = x % mod := by
  induction x using Nat.strong_induction_on with
  | _ x ih =>
    have h := fold128_eq x hx
    rw [mod61_u128_loop]
    split
    · rename_i hgt
      have hlt : fold128 x < x := by
        rw [h] at hgt ⊢
        simp only [mod] at hgt
        omega
      obtain ⟨a, b⟩ := ih (fold128 x) hlt (lt_trans hlt hx)
      refine ⟨a, b.trans ?_⟩
      rw [h]
      simp only [mod]
      omega
    · rename_i hle
      refine ⟨Nat.not_lt.mp hle, ?_⟩
      rw [h]
      simp only [mod]
      omega

theorem mod61_u128_spec (x : Nat) (hx : x < U128) :
    mod61_u128 x ≤ mod ∧ mod61_u128 x % mod = x % mod := by
  obtain ⟨a, b⟩ := mod61_u128_loop_spec x hx
  unfold mod61_u128
  simp only []
  generalize mod61_u128_loop x = t at a b ⊢
  rw [← b]
  simp only [mod] at *
  split <;> omega

theorem mul_lt_U128 (x1 x2 : Nat) (h1 : x1 < U64) (h2 : x2 < U64) : x1 * x2 < U128 := by
  have h : x1 * x2 < U64 * U64 := Nat.mul_lt_mul_of_lt_of_lt h1 h2
  exact h

theorem mulmod61_eq (x1 x2 : Nat) (h1 : x1 < U64) (h2 : x2 < U64) :
    mulmod61 x1 x2 = mod61_u128 (x1 * x2) := by
  have h := mul_lt_U128 x1 x2 h1 h2
  have h3 : x1 % U128 = x1 := Nat.mod_eq_of_lt (lt_trans h1 (by norm_num))
  unfold mulmod61
  simp only [h3, Nat.mod_eq_of_lt h]
  apply Nat.mod_eq_of_lt
  have := (mod61_u128_spec (x1 * x2) h).1
  simp only [mod, U64] at *
  omega

theorem mulmod61_le (x1 x2 : Nat) (h1 : x1 < U64) (h2 : x2 < U64) : mulmod61 x1 x2 ≤ mod := by
  rw [mulmod61_eq x1 x2 h1 h2]
  exact (mod61_u128_spec _ (mul_lt_U128 x1 x2 h1 h2)).1

theorem mulmod61_mod (x1 x2 : Nat) (h1 : x1 < U64) (h2 : x2 < U64) :
    mulmod61 x1 x2 % mod = (x1 * x2) % mod := by
  rw [mulmod61_eq x1 x2 h1 h2]
  exact (mod61_u128_spec _ (mul_lt_U128 x1 x2 h1 h2)).2

theorem mod61_u128_small (t : Nat) (h : t < mod) : mod61_u128 t = t := by
  have ht : t < U128 := lt_trans h (by norm_num [mod])
  have hf : fold128 t = t := by
    rw [fold128_eq t ht]
    simp only [mod] at h
    omega
  have hl : mod61_u128_loop t = t := by
    rw [mod61_u128_loop_of_le t (by rw [hf]; omega), hf]
  unfold mod61_u128
  simp only [hl]
  exact if_neg (Nat.not_le.mpr h)

theorem mulmod61_small (a b : Nat) (h : a * b < mod) : mulmod61 a b = a * b := by
  have hm : a * b < U128 := lt_trans h (by norm_num [mod])
  unfold mulmod61
  simp only [Nat.mod_mul_mod, Nat.mod_eq_of_lt hm]
  rw [mod61_u128_small _ h]
  exact Nat.mod_eq_of_lt (lt_trans h (by norm_num [mod]))

theorem mod61_u64_small (t : Nat) (h : t < mod) : mod61_u64 t = t := by
  have ht : t < U64 := lt_trans h (by norm_num [mod])
  have hf : fold64 t = t := by
    rw [fold64_eq t ht]
    simp only [mod] at h
    omega
  unfold mod61_u64
  simp only [mod61_u64_loop_eq t ht, hf]
  exact if_neg (Nat.not_le.mpr h)

theorem i61hash_foldl_fst_lt (x : Nat) (keys l : List Nat) (st : Nat × Nat) (h : st.1 < U64) :
    (l.foldl (i61hash_step x keys) st).1 < U64 := by
  induction l generalizing st with
  | nil => exact h
  | cons i t ih => exact ih _ (Nat.mod_lt _ (by norm_num))

end nosiam

/-! ## Backend 2^89 - 1 -/

namespace siam

theorem LOW_eq (x : Nat) : LOW x = x % 2 ^ 32 :=
  Nat.and_pow_two_sub_one_eq_mod x 32

theorem HIGH_eq (x : Nat) : HIGH x = x / 2 ^ 32 :=
  Nat.shiftRight_eq_div_pow x 32

theorem and_Prime89_2 (x : Nat) : x &&& Prime89_2 = x % 2 ^ 25 :=
  Nat.and_pow_two_sub_one_eq_mod x 25

theorem and_Prime89_21 (x : Nat) : x &&& Prime89_21 = x % 2 ^ 57 :=
  Nat.and_pow_two_sub_one_eq_mod x 57

/-- Carry propagation: the three stored limbs hold the exact sum of the
partial sums. -/
theorem core_sum (p00 d0 d1 d2 d3 b0 b1 b2 : Nat)
    (hp00 : p00 < 2 ^ 64) (hd0 : d0 < 2 ^ 64) (hd1 : d1 < 2 ^ 64) (hd2 : d2 < 2 ^ 58)
    (hd3 : d3 < 2 ^ 27) (hb0 : b0 < 2 ^ 32) (hb1 : b1 < 2 ^ 32) (hb2 : b2 < 2 ^ 25) :
    (b2 + d2 / 2 ^ 32 + d3
        + (b1 + p00 / 2 ^ 32 + d0 / 2 ^ 32 + d1 / 2 ^ 32 + d2 % 2 ^ 32
            + (b0 + p00 % 2 ^ 32 + d0 % 2 ^ 32 + d1 % 2 ^ 32) / 2 ^ 32) / 2 ^ 32 < 2 ^ 32)
    ∧ (b0 + p00 % 2 ^ 32 + d0 % 2 ^ 32 + d1 % 2 ^ 32) % 2 ^ 32
      + ((b1 + p00 / 2 ^ 32 + d0 / 2 ^ 32 + d1 / 2 ^ 32 + d2 % 2 ^ 32
            + (b0 + p00 % 2 ^ 32 + d0 % 2 ^ 32 + d1 % 2 ^ 32) / 2 ^ 32) % 2 ^ 32) * 2 ^ 32
      + (b2 + d2 / 2 ^ 32 + d3
        + (b1 + p00 / 2 ^ 32 + d0 / 2 ^ 32 + d1 / 2 ^ 32 + d2 % 2 ^ 32
            + (b0 + p00 % 2 ^ 32 + d0 % 2 ^ 32 + d1 % 2 ^ 32) / 2 ^ 32) / 2 ^ 32) * 2 ^ 64
      = p00 + d0 + d1 + d2 * 2 ^ 32 + d3 * 2 ^ 64 + (b0 + b1 * 2 ^ 32 + b2 * 2 ^ 64) := by
  constructor <;> omega

/-- Folding the partial products at 2^89: the partial sums differ from the
product by a multiple of 2^89 - 1. -/
theorem core_fold (p01 p10 p11 p20 p21 : Nat) :
    (p20 / 2 ^ 25 + p11 / 2 ^ 25 + p10 / 2 ^ 57 + p01 / 2 ^ 57)
      + (p21 * 2 ^ 7) % 2 ^ 64
      + (p10 % 2 ^ 57 + p01 % 2 ^ 57) * 2 ^ 32
      + (p20 % 2 ^ 25 + p11 % 2 ^ 25 + p21 / 2 ^ 57) * 2 ^ 64
      + (2 ^ 89 - 1) * (p20 / 2 ^ 25 + p11 / 2 ^ 25 + p10 / 2 ^ 57 + p01 / 2 ^ 57 + p21 * 2 ^ 7)
    = (p01 + p10) * 2 ^ 32 + (p11 + p20) * 2 ^ 64 + p21 * 2 ^ 96 := by
  omega

theorem mul_lt_U64 (u v : Nat) (hu : u < U32) (hv : v < U32) : u * v < 2 ^ 64 := by
  have h : u * v < U32 * U32 := Nat.mul_lt_mul_of_lt_of_lt hu hv
  exact h

/-- The values assigned by `MultAddPrime89`, with every 64-bit wraparound
shown to be vacuous. -/
theorem MultAddPrime89_wide_eq (x : Nat) (a b : int96_t) (hx : x < U64)
    (ha : ∀ i, a i < U32) (hb : ∀ i, b i < U32) (hb2 : b 2 < 2 ^ 25) :
    let p00 := a 0 * (x % 2 ^ 32)
    let p01 := a 0 * (x / 2 ^ 32)
    let p10 := a 1 * (x % 2 ^ 32)
    let p11 := a 1 * (x / 2 ^ 32)
    let p20 := a 2 * (x % 2 ^ 32)
    let p21 := a 2 * (x / 2 ^ 32)
    let d0 := p20 / 2 ^ 25 + p11 / 2 ^ 25 + p10 / 2 ^ 57 + p01 / 2 ^ 57
    let d1 := (p21 * 2 ^ 7) % 2 ^ 64
    let d2 := p10 % 2 ^ 57 + p01 % 2 ^ 57
    let d3 := p20 % 2 ^ 25 + p11 % 2 ^ 25 + p21 / 2 ^ 57
    let s0 := b 0 + p00 % 2 ^ 32 + d0 % 2 ^ 32 + d1 % 2 ^ 32
    let s1 := b 1 + p00 / 2 ^ 32 + d0 / 2 ^ 32 + d1 / 2 ^ 32 + d2 % 2 ^ 32 + s0 / 2 ^ 32
    MultAddPrime89_wide x a b
      = (s0 % 2 ^ 32, s1 % 2 ^ 32, b 2 + d2 / 2 ^ 32 + d3 + s1 / 2 ^ 32) := by
  have hx0 : x % 2 ^ 32 < U32 := Nat.mod_lt _ (by norm_num)
  have hx1 : x / 2 ^ 32 < U32 := by simp only [U64, U32] at *; omega
  have h00 := mul_lt_U64 _ _ (ha 0) hx0
  have h01 := mul_lt_U64 _ _ (ha 0) hx1
  have h10 := mul_lt_U64 _ _ (ha 1) hx0
  have h11 := mul_lt_U64 _ _ (ha 1) hx1
  have h20 := mul_lt_U64 _ _ (ha 2) hx0
  have h21 := mul_lt_U64 _ _ (ha 2) hx1
  have hb0 := hb 0
  have hb1 := hb 1
  simp only [MultAddPrime89_wide, LOW_eq, HIGH_eq, and_Prime89_2, and_Prime89_21,
    Nat.shiftRight_eq_div_pow, Nat.shiftLeft_eq, U64, U32] at *
  generalize a 0 * (x % 2 ^ 32) = p00 at *
  generalize a 0 * (x / 2 ^ 32) = p01 at *
  generalize a 1 * (x % 2 ^ 32) = p10 at *
  generalize a 1 * (x / 2 ^ 32) = p11 at *
  generalize a 2 * (x % 2 ^ 32) = p20 at *
  generalize a 2 * (x / 2 ^ 32) = p21 at *
  generalize b 0 = b0 at *
  generalize b 1 = b1 at *
  generalize b 2 = b2 at *
  rw [Nat.mod_eq_of_lt h00, Nat.mod_eq_of_lt h01, Nat.mod_eq_of_lt h10, Nat.mod_eq_of_lt h11,
    Nat.mod_eq_of_lt h20, Nat.mod_eq_of_lt h21]
  have e0 : (p20 / 2 ^ 25 + p11 / 2 ^ 25 + p10 / 2 ^ 57 + p01 / 2 ^ 57) % 2 ^ 64
      = p20 / 2 ^ 25 + p11 / 2 ^ 25 + p10 / 2 ^ 57 + p01 / 2 ^ 57 := by omega
  have e2 : (p10 % 2 ^ 57 + p01 % 2 ^ 57) % 2 ^ 64 = p10 % 2 ^ 57 + p01 % 2 ^ 57 := by omega
  have e3 : (p20 % 2 ^ 25 + p11 % 2 ^ 25 + p21 / 2 ^ 57) % 2 ^ 64
      = p20 % 2 ^ 25 + p11 % 2 ^ 25 + p21 / 2 ^ 57 := by omega
  rw [e0, e2, e3]
  have hd0 : p20 / 2 ^ 25 + p11 / 2 ^ 25 + p10 / 2 ^ 57 + p01 / 2 ^ 57 < 2 ^ 41 := by omega
  have hd1 : (p21 * 2 ^ 7) % 2 ^ 64 < 2 ^ 64 := Nat.mod_lt _ (by norm_num)
  have hd2 : p10 % 2 ^ 57 + p01 % 2 ^ 57 < 2 ^ 58 := by omega
  have hd3 : p20 % 2 ^ 25 + p11 % 2 ^ 25 + p21 / 2 ^ 57 < 2 ^ 27 := by omega
  generalize p20 / 2 ^ 25 + p11 / 2 ^ 25 + p10 / 2 ^ 57 + p01 / 2 ^ 57 = d0 at *
  generalize (p21 * 2 ^ 7) % 2 ^ 64 = d1 at *
  generalize p10 % 2 ^ 57 + p01 % 2 ^ 57 = d2 at *
  generalize p20 % 2 ^ 25 + p11 % 2 ^ 25 + p21 / 2 ^ 57 = d3 at *
  have f0 : (b0 + p00 % 2 ^ 32 + d0 % 2 ^ 32 + d1 % 2 ^ 32) % 2 ^ 64
      = b0 + p00 % 2 ^ 32 + d0 % 2 ^ 32 + d1 % 2 ^ 32 := by omega
  rw [f0]
  have hs0 : b0 + p00 % 2 ^ 32 + d0 % 2 ^ 32 + d1 % 2 ^ 32 < 2 ^ 34 := by omega
  generalize b0 + p00 % 2 ^ 32 + d0 % 2 ^ 32 + d1 % 2 ^ 32 = s0 at *
  have f1 : (b1 + p00 / 2 ^ 32 + d0 / 2 ^ 32 + d1 / 2 ^ 32 + d2 % 2 ^ 32 + s0 / 2 ^ 32) % 2 ^ 64
      = b1 + p00 / 2 ^ 32 + d0 / 2 ^ 32 + d1 / 2 ^ 32 + d2 % 2 ^ 32 + s0 / 2 ^ 32 := by omega
  rw [f1]
  have hs1 : b1 + p00 / 2 ^ 32 + d0 / 2 ^ 32 + d1 / 2 ^ 32 + d2 % 2 ^ 32 + s0 / 2 ^ 32
      < 2 ^ 35 := by omega
  generalize b1 + p00 / 2 ^ 32 + d0 / 2 ^ 32 + d1 / 2 ^ 32 + d2 % 2 ^ 32 + s0 / 2 ^ 32 = s1 at *
  have f2 : (b2 + d2 / 2 ^ 32 + d3 + s1 / 2 ^ 32) % 2 ^ 64 = b2 + d2 / 2 ^ 32 + d3 + s1 / 2 ^ 32 := by
    omega
  rw [f2]

theorem value_mul (a : int96_t) (x : Nat) :
    value a * x
      = a 0 * (x % 2 ^ 32)
        + (a 0 * (x / 2 ^ 32) + a 1 * (x % 2 ^ 32)) * 2 ^ 32
        + (a 1 * (x / 2 ^ 32) + a 2 * (x % 2 ^ 32)) * 2 ^ 64
        + a 2 * (x / 2 ^ 32) * 2 ^ 96 := by
  have hxd : x = x % 2 ^ 32 + (x / 2 ^ 32) * 2 ^ 32 := by omega
  generalize x % 2 ^ 32 = x0 at hxd ⊢
  generalize x / 2 ^ 32 = x1 at hxd ⊢
  subst hxd
  unfold value
  ring

theorem MultAddPrime89_spec (x : Nat) (a b : int96_t) (hx : x < U64)
    (ha : ∀ i, a i < U32) (hb : ∀ i, b i < U32) (hb2 : b 2 < 2 ^ 25) :
    (MultAddPrime89_wide x a b).2.2 < 2 ^ 32
    ∧ ∃ K, (MultAddPrime89_wide x a b).1 + (MultAddPrime89_wide x a b).2.1 * 2 ^ 32
        + (MultAddPrime89_wide x a b).2.2 * 2 ^ 64 + (2 ^ 89 - 1) * K
        = value a * x + value b := by
  have hx0 : x % 2 ^ 32 < U32 := Nat.mod_lt _ (by norm_num)
  have hx1 : x / 2 ^ 32 < U32 := by simp only [U64, U32] at *; omega
  have h00 := mul_lt_U64 _ _ (ha 0) hx0
  have h21 := mul_lt_U64 _ _ (ha 2) hx1
  have h01 := mul_lt_U64 _ _ (ha 0) hx1
  have h10 := mul_lt_U64 _ _ (ha 1) hx0
  have h11 := mul_lt_U64 _ _ (ha 1) hx1
  have h20 := mul_lt_U64 _ _ (ha 2) hx0
  have hw := MultAddPrime89_wide_eq x a b hx ha hb hb2
  have hm := value_mul a x
  simp only [] at hw
  rw [hw, hm]
  have hf := core_fold (a 0 * (x / 2 ^ 32)) (a 1 * (x % 2 ^ 32)) (a 1 * (x / 2 ^ 32))
    (a 2 * (x % 2 ^ 32)) (a 2 * (x / 2 ^ 32))
  generalize a 0 * (x % 2 ^ 32) = p00 at *
  generalize a 0 * (x / 2 ^ 32) = p01 at *
  generalize a 1 * (x % 2 ^ 32) = p10 at *
  generalize a 1 * (x / 2 ^ 32) = p11 at *
  generalize a 2 * (x % 2 ^ 32) = p20 at *
  generalize a 2 * (x / 2 ^ 32) = p21 at *
  have hd0 : p20 / 2 ^ 25 + p11 / 2 ^ 25 + p10 / 2 ^ 57 + p01 / 2 ^ 57 < 2 ^ 64 := by omega
  have hd1 : (p21 * 2 ^ 7) % 2 ^ 64 < 2 ^ 64 := Nat.mod_lt _ (by norm_num)
  have hd2 : p10 % 2 ^ 57 + p01 % 2 ^ 57 < 2 ^ 58 := by omega
  have hd3 : p20 % 2 ^ 25 + p11 % 2 ^ 25 + p21 / 2 ^ 57 < 2 ^ 27 := by omega
  have hc := core_sum p00 _ _ _ _ (b 0) (b 1) (b 2) h00 hd0 hd1 hd2 hd3 (hb 0) (hb 1) hb2
  refine ⟨hc.1, p20 / 2 ^ 25 + p11 / 2 ^ 25 + p10 / 2 ^ 57 + p01 / 2 ^ 57 + p21 * 2 ^ 7, ?_⟩
  have hs := hc.2
  unfold value
  simp only [] at hs ⊢
  rw [hs]
  clear hs hc hw hd0 hd1 hd2 hd3
  generalize p20 / 2 ^ 25 + p11 / 2 ^ 25 + p10 / 2 ^ 57 + p01 / 2 ^ 57 = d0 at hf ⊢
  generalize (p21 * 2 ^ 7) % 2 ^ 64 = d1 at hf ⊢
  generalize p10 % 2 ^ 57 + p01 % 2 ^ 57 = d2 at hf ⊢
  generalize p20 % 2 ^ 25 + p11 % 2 ^ 25 + p21 / 2 ^ 57 = d3 at hf ⊢
  omega

end siam

namespace siam

theorem Mod64Prime89_eq (r : int96_t) (hr : ∀ i, r i < U32) :
    Mod64Prime89 r = (value r % (2 ^ 89 - 1)) % U64 := by
  have h0 := hr 0
  have h1 := hr 1
  have h2 := hr 2
  simp only [Mod64Prime89, value, and_Prime89_2, Nat.and_pow_two_sub_one_eq_mod,
    Nat.shiftRight_eq_div_pow, Nat.shiftLeft_eq,
    Prime89_0, Prime89_1, Prime89_2, U64, U32] at *
  generalize r 0 = a at *
  generalize r 1 = b at *
  generalize r 2 = c at *
  have hc : c = 2 ^ 25 * (c / 2 ^ 25) + c % 2 ^ 25 := (Nat.div_add_mod c _).symm
  have hlo : c % 2 ^ 25 < 2 ^ 25 := Nat.mod_lt _ (by norm_num)
  have hhi : c / 2 ^ 25 < 2 ^ 7 := by omega
  generalize c / 2 ^ 25 = hi at *
  generalize c % 2 ^ 25 = lo at *
  have hV : (a + b * 2 ^ 32 + c * 2 ^ 64) % (2 ^ 89 - 1)
      = (a + hi + b * 2 ^ 32 + lo * 2 ^ 64) % (2 ^ 89 - 1) := by
    have e : a + b * 2 ^ 32 + c * 2 ^ 64
        = (a + hi + b * 2 ^ 32 + lo * 2 ^ 64) + (2 ^ 89 - 1) * hi := by omega
    rw [e, Nat.add_mul_mod_self_left]
  have hr0 : (a + hi) % 2 ^ 64 = a + hi := Nat.mod_eq_of_lt (by omega)
  rw [hV, hr0]
  clear hV hr0 hc h2
  split
  · rename_i hcond
    have e : a + hi + b * 2 ^ 32 + lo * 2 ^ 64 = (2 ^ 89 - 1) + (a + hi - (2 ^ 32 - 1)) := by
      omega
    rw [e, Nat.add_mod_left, Nat.mod_eq_of_lt (by omega), Nat.mod_eq_of_lt (by omega)]
  · rename_i hcond
    have hlt : a + hi + b * 2 ^ 32 + lo * 2 ^ 64 < 2 ^ 89 - 1 := by omega
    rw [Nat.mod_eq_of_lt hlt]
    omega

end siam

/-! ## Vector `WangHash` -/

namespace WangHash

theorem vstep1 (y : Nat) :
    ((y <<< 21) % U64 + (U64 - 1 - y)) % U64 = ((U64 - 1 - y) + (y <<< 21) % U64) % U64 := by
  rw [Nat.add_comm]

theorem vstep2 (y : Nat) : (y >>> 24) ^^^ y = y ^^^ (y >>> 24) := Nat.xor_comm _ _

theorem vstep3 (y : Nat) :
    (((y <<< 3) % U64 + (y <<< 8) % U64) % U64 + y) % U64
      = ((y + (y <<< 3) % U64) % U64 + (y <<< 8) % U64) % U64 := by
  generalize (y <<< 3) % U64 = a
  generalize (y <<< 8) % U64 = b
  simp only [U64]
  omega

theorem vstep5 (y : Nat) :
    (((y <<< 2) % U64 + (y <<< 4) % U64) % U64 + y) % U64
      = ((y + (y <<< 2) % U64) % U64 + (y <<< 4) % U64) % U64 := by
  generalize (y <<< 2) % U64 = a
  generalize (y <<< 4) % U64 = b
  simp only [U64]
  omega

theorem vstep7 (y : Nat) :
    ((y <<< 31) % U64 + y) % U64 = (y + (y <<< 31) % U64) % U64 := by
  rw [Nat.add_comm]

theorem mstep3 (y : Nat) :
    (y + ((y <<< 3) % U64 + (y <<< 8) % U64) % U64) % U64
      = ((y + (y <<< 3) % U64) % U64 + (y <<< 8) % U64) % U64 := by
  generalize (y <<< 3) % U64 = a
  generalize (y <<< 8) % U64 = b
  simp only [U64]
  omega

theorem call_Type_lane {W : Nat} (element : VType W) (i : Fin W) :
    call_Type element i = call (element i) := by
  simp only [call_Type, call, Space.add, Space.slli, Space.srli, Space.xor_fn, Space.not_fn,
    vstep1, vstep2, vstep3, vstep5, vstep7]

theorem call_m128i_lane (key : VType 2) (i : Fin 2) :
    call_m128i key i = call (key i) := by
  simp only [call_m128i, call, Space.add, Space.slli, Space.srli, Space.xor_fn, Space.not_fn,
    mstep3, vstep7]

end WangHash

/-! ## `pcg32` -/

theorem testBit_mod_U32 (x j : Nat) :
    (x % U32).testBit j = (decide (j < 32) && x.testBit j) :=
  Nat.testBit_mod_two_pow x 32 j

theorem testBit_high32 (x : Nat) (hx : x < U32) (j : Nat) (hj : 32 ≤ j) :
    x.testBit j = false := by
  apply Nat.testBit_lt_two_pow
  exact lt_of_lt_of_le hx (Nat.pow_le_pow_right (by norm_num) hj)

/-- Bit `i` of the expression `(t >> rot) | (t << ((32 - rot) % 32))` on 32-bit
words is bit `(i + rot) mod 32` of `t`. -/
theorem rotr32_testBit (t rot i : Nat) (ht : t < U32) (hrot : rot < 32) (hi : i < 32) :
    ((t >>> rot) ||| ((t <<< ((32 - rot) % 32)) % U32)).testBit i
      = t.testBit ((i + rot) % 32) := by
  simp only [Nat.testBit_or, Nat.testBit_shiftRight, Nat.testBit_shiftLeft, testBit_mod_U32]
  by_cases h0 : rot = 0
  · subst h0
    have e : i % 32 = i := by omega
    simp [hi, e]
  · have hk : (32 - rot) % 32 = 32 - rot := by omega
    rw [hk]
    by_cases h1 : i + rot < 32
    · have e : (i + rot) % 32 = rot + i := by omega
      have h2 : ¬ (i ≥ 32 - rot) := by omega
      simp [hi, e, h2]
    · have e : (i + rot) % 32 = i - (32 - rot) := by omega
      have h2 : i ≥ 32 - rot := by omega
      have h3 : t.testBit (rot + i) = false := testBit_high32 t ht _ (by omega)
      simp [hi, e, h2, h3]

theorem neg_and_31 (rot : Nat) (hrot : rot < 32) :
    ((U32 - rot) % U32) &&& 31 = (32 - rot) % 32 := by
  have e : ((U32 - rot) % U32) &&& 31 = ((U32 - rot) % U32) % 2 ^ 5 :=
    Nat.and_pow_two_sub_one_eq_mod _ 5
  rw [e]
  simp only [U32]
  omega

theorem shiftRight_59_lt (s : Nat) (hs : s < U64) : s >>> 59 < 32 := by
  rw [Nat.shiftRight_eq_div_pow]
  simp only [U64] at hs
  omega

theorem pcg32_random_r_fst (rng : pcg32_random_t) (hs : rng.state < U64) :
    (pcg32_random_r rng).1
      = (((((rng.state >>> 18) ^^^ rng.state) >>> 27) % U32) >>> (rng.state >>> 59))
        ||| ((((((rng.state >>> 18) ^^^ rng.state) >>> 27) % U32)
              <<< ((32 - (rng.state >>> 59)) % 32)) % U32) := by
  have hrot := shiftRight_59_lt rng.state hs
  have e : (rng.state >>> 59) % U32 = rng.state >>> 59 :=
    Nat.mod_eq_of_lt (lt_trans hrot (by norm_num))
  simp only [pcg32_random_r, e, neg_and_31 _ hrot]

theorem pcg32_random_r_fst_lt (rng : pcg32_random_t) (hs : rng.state < U64) :
    (pcg32_random_r rng).1 < U32 := by
  rw [pcg32_random_r_fst rng hs]
  apply Nat.or_lt_two_pow
  · rw [Nat.shiftRight_eq_div_pow]
    exact lt_of_le_of_lt (Nat.div_le_self _ _) (Nat.mod_lt _ (by norm_num))
  · exact Nat.mod_lt _ (by norm_num)


theorem PCGen.Reachable.inc_odd (rng : pcg32_random_t) (h : PCGen.Reachable rng) :
    rng.inc % 2 = 1 := by
  induction h with
  | new seed inc _ _ => exact Nat.or_mod_two_eq_one.mpr (Or.inr rfl)
  | seed rng newseed _ _ ih => exact ih
  | call rng _ ih => exact ih
  | make_u64 leftFirst rng _ ih => cases leftFirst <;> exact ih

/-! ## Shift-xor -/

theorem enditer_mul (n : Nat) (hn : 1 ≤ n) : 64 < (64 / n - 1 + 1 + 1) * n := by
  have h : 64 < n * (64 / n + 1) := Nat.lt_mul_div_succ 64 hn
  have h2 : (64 / n + 1) * n ≤ (64 / n - 1 + 1 + 1) * n :=
    Nat.mul_le_mul_right n (by omega)
  rw [Nat.mul_comm] at h
  exact lt_of_lt_of_le h h2

/-- After `k` passes of `ret = w ^ (ret >> n)` from `w = v ^ (v >> n)`, the
bits from position `64 - (k + 1) * n` up are those of `v`. -/
theorem RShiftXor_iterate_testBit (n v : Nat) (hv : v < U64) (k : Nat) :
    ∀ i, 64 ≤ i + (k + 1) * n →
      (Nat.iterate (fun ret => RShiftXor n v ^^^ (ret >>> n)) k (RShiftXor n v)).testBit i
        = v.testBit i := by
  induction k with
  | zero =>
    intro i hi
    have h : v.testBit (n + i) = false := testBit_high v hv _ (by omega)
    simp [RShiftXor, Nat.testBit_xor, Nat.testBit_shiftRight, h]
  | succ k ih =>
    intro i hi
    have h := ih (n + i) (by
      have e : (k + 1 + 1) * n = (k + 1) * n + n := by ring
      omega)
    rw [Function.iterate_succ_apply', Nat.testBit_xor, Nat.testBit_shiftRight, h]
    simp [RShiftXor, Nat.testBit_xor, Nat.testBit_shiftRight]

theorem InvRShiftXor_RShiftXor (n v : Nat) (hn : 1 ≤ n) (hv : v < U64) :
    InvRShiftXor n (RShiftXor n v) = v := by
  have e : InvRShiftXor n (RShiftXor n v)
      = Nat.iterate (fun ret => RShiftXor n v ^^^ (ret >>> n)) (64 / n - 1 + 1)
          (RShiftXor n v) := by
    rw [Function.iterate_succ_apply]
    rfl
  rw [e]
  apply Nat.eq_of_testBit_eq
  intro i
  apply RShiftXor_iterate_testBit n v hv
  have h := enditer_mul n hn
  omega

theorem testBit_shiftLeft_mod (x n i : Nat) :
    ((x <<< n) % U64).testBit i = (decide (i < 64) && (decide (i ≥ n) && x.testBit (i - n))) := by
  rw [testBit_mod_U64, Nat.testBit_shiftLeft]

/-- After `k` passes of `ret = w ^ (ret << n)` from `w = v ^ (v << n)`, the
bits below position `(k + 1) * n` are those of `v`, and no bit from 64 up is
set. -/
theorem LShiftXor_iterate_testBit (n v : Nat) (k : Nat) :
    ∀ i, (i < (k + 1) * n ∨ 64 ≤ i) →
      (Nat.iterate (fun ret => LShiftXor n v ^^^ ((ret <<< n) % U64)) k
          (LShiftXor n v)).testBit i
        = v.testBit i := by
  induction k with
  | zero =>
    intro i hi
    simp only [Function.iterate_zero, id_eq, LShiftXor, Nat.testBit_xor, testBit_shiftLeft_mod]
    rcases hi with hi | hi
    · have h : ¬ (i ≥ n) := by omega
      simp [h]
    · have h : ¬ (i < 64) := by omega
      simp [h]
  | succ k ih =>
    intro i hi
    rw [Function.iterate_succ_apply', Nat.testBit_xor, testBit_shiftLeft_mod]
    by_cases h64 : i < 64
    · by_cases hin : i ≥ n
      · have h := ih (i - n) (Or.inl (by
          have e : (k + 1 + 1) * n = (k + 1) * n + n := by ring
          omega))
        rw [h]
        simp [LShiftXor, Nat.testBit_xor, testBit_shiftLeft_mod, h64, hin]
      · simp [LShiftXor, Nat.testBit_xor, testBit_shiftLeft_mod, h64, hin]
    · simp [LShiftXor, Nat.testBit_xor, testBit_shiftLeft_mod, h64]

theorem InvLShiftXor_LShiftXor (n v : Nat) (hn : 1 ≤ n) :
    InvLShiftXor n (LShiftXor n v) = v := by
  have e : InvLShiftXor n (LShiftXor n v)
      = Nat.iterate (fun ret => LShiftXor n v ^^^ ((ret <<< n) % U64)) (64 / n - 1 + 1)
          (LShiftXor n v) := by
    rw [Function.iterate_succ_apply]
    rfl
  rw [e]
  apply Nat.eq_of_testBit_eq
  intro i
  apply LShiftXor_iterate_testBit n v
  have h := enditer_mul n hn
  omega

/-! ## `WangHash`, 32-bit overload -/

theorem mul_odd_inj32 (c a b : Nat) (hc : c % 2 = 1) (ha : a < U32) (hb : b < U32)
    (h : (a * c) % U32 = (b * c) % U32) : a = b := by
  have hcop : Nat.gcd U32 c = 1 := by
    have h2 : Nat.Coprime 2 c := (Nat.coprime_two_left).mpr (Nat.odd_iff.mpr hc)
    exact Nat.Coprime.pow_left 32 h2
  have h1 : c * a ≡ c * b [MOD U32] := by
    rw [Nat.mul_comm c a, Nat.mul_comm c b]
    exact h
  have h3 : a ≡ b [MOD U32] := Nat.ModEq.cancel_left_of_coprime hcop h1
  have h4 : a % U32 = b % U32 := h3
  rwa [Nat.mod_eq_of_lt ha, Nat.mod_eq_of_lt hb] at h4

theorem xorshift_lt32 (a k : Nat) (ha : a < U32) : a ^^^ (a >>> k) < U32 := by
  apply Nat.xor_lt_two_pow ha
  rw [Nat.shiftRight_eq_div_pow]
  exact lt_of_le_of_lt (Nat.div_le_self _ _) ha

namespace WangHash

theorem step32_1_eq (a : Nat) :
    ((a + (U32 - 1 - (a <<< 15) % U32)) % U32 + 1) % U32 = (a * 4294934529) % U32 := by
  simp only [Nat.shiftLeft_eq, U32]
  omega

theorem step32_3_eq (a : Nat) : (a + (a <<< 3) % U32) % U32 = (a * 9) % U32 := by
  simp only [Nat.shiftLeft_eq, U32]
  omega

theorem step32_5_eq (a : Nat) :
    ((a + (U32 - 1 - (a <<< 11) % U32)) % U32 + 1) % U32 = (a * 4294965249) % U32 := by
  simp only [Nat.shiftLeft_eq, U32]
  omega

theorem step32_1_inj (a b : Nat) (ha : a < U32) (hb : b < U32)
    (h : (a + (U32 - 1 - (a <<< 15) % U32)) % U32 = (b + (U32 - 1 - (b <<< 15) % U32)) % U32) :
    a = b := by
  apply mul_odd_inj32 4294934529 a b (by norm_num) ha hb
  rw [← step32_1_eq a, ← step32_1_eq b, h]

theorem step32_5_inj (a b : Nat) (ha : a < U32) (hb : b < U32)
    (h : (a + (U32 - 1 - (a <<< 11) % U32)) % U32 = (b + (U32 - 1 - (b <<< 11) % U32)) % U32) :
    a = b := by
  apply mul_odd_inj32 4294965249 a b (by norm_num) ha hb
  rw [← step32_5_eq a, ← step32_5_eq b, h]

theorem call32_lt (a : Nat) : call32 a < U32 :=
  xorshift_lt32 _ 16 (Nat.mod_lt _ (by norm_num))

theorem call32_inj (a b : Nat) (ha : a < U32) (hb : b < U32) (h : call32 a = call32 b) :
    a = b := by
  have hU : 0 < U32 := by norm_num
  simp only [call32] at h
  have h5 := xorshift_inj _ _ 16 (by norm_num) h
  have h4 := step32_5_inj _ _ (xorshift_lt32 _ 6 (Nat.mod_lt _ hU))
    (xorshift_lt32 _ 6 (Nat.mod_lt _ hU)) h5
  have h3 := xorshift_inj _ _ 6 (by norm_num) h4
  rw [step32_3_eq, step32_3_eq] at h3
  have h2 := mul_odd_inj32 9 _ _ (by norm_num)
    (xorshift_lt32 _ 10 (Nat.mod_lt _ hU)) (xorshift_lt32 _ 10 (Nat.mod_lt _ hU)) h3
  have h1 := xorshift_inj _ _ 10 (by norm_num) h2
  exact step32_1_inj a b ha hb h1

theorem call32_surj (y : Nat) (hy : y < U32) : ∃ x, x < U32 ∧ call32 x = y :=
  surj_of_inj_lt U32 call32 call32_lt call32_inj y hy

end WangHash

/-! ## Number of folds in `mod61` -/

namespace nosiam

theorem fold128_lt_of_gt (x : Nat) (h : mod * 2 < fold128 x) : fold128 x < x := by
  have e1 : x &&& mod = x % 2 ^ 61 := Nat.and_pow_two_sub_one_eq_mod x 61
  have h1 : fold128 x ≤ x / 2 ^ 61 + x % 2 ^ 61 := by
    unfold fold128
    rw [e1, Nat.shiftRight_eq_div_pow]
    exact Nat.mod_le _ _
  clear e1
  generalize fold128 x = t at h h1 ⊢
  simp only [mod] at h
  omega

/-- The counter counts the passes of the loop: the loop returns the input
folded that many times. -/
theorem mod61_u128_loop_eq_iterate (x : Nat) :
    mod61_u128_loop x = Nat.iterate fold128 (mod61_u128_folds x) x := by
  induction x using Nat.strong_induction_on with
  | _ x ih =>
    rw [mod61_u128_loop, mod61_u128_folds]
    split
    · rename_i hgt
      rw [ih (fold128 x) (fold128_lt_of_gt x hgt), Function.iterate_succ_apply]
    · rfl

theorem mod61_u128_folds_pos (x : Nat) : 1 ≤ mod61_u128_folds x := by
  rw [mod61_u128_folds]
  split <;> omega

theorem mod61_u128_folds_le (x : Nat) (hx : x < U128) : mod61_u128_folds x ≤ 2 := by
  have h := fold128_eq x hx
  rw [mod61_u128_folds]
  split
  · have hf : fold128 x < U128 := by
      rw [h]
      simp only [U128] at *
      omega
    have h2 := fold128_eq (fold128 x) hf
    have h3 : mod61_u128_folds (fold128 x) = 1 := by
      rw [mod61_u128_folds]
      apply if_neg
      rw [h2, h]
      simp only [mod, U128] at *
      omega
    omega
  · omega

theorem mod61_u64_folds_eq (x : Nat) (hx : x < U64) : mod61_u64_folds x = 1 := by
  have h := fold64_eq x hx
  rw [mod61_u64_folds]
  apply if_neg
  rw [h]
  simp only [mod, U64] at *
  omega

theorem mod61_u128_folds_max : mod61_u128_folds (2 ^ 128 - 1) = 2 := by
  have h1 : mod * 2 < fold128 (2 ^ 128 - 1) := by decide
  have h2 : ¬ mod * 2 < fold128 (fold128 (2 ^ 128 - 1)) := by decide
  rw [mod61_u128_folds, if_pos h1, mod61_u128_folds, if_neg h2]

end nosiam

/-! ## `MurFinHash` -/

namespace MurFinHash

theorem call_lt_U64 (a : Nat) : call a < U64 :=
  xorshift_lt _ 33 (Nat.mod_lt _ (by norm_num))

theorem call_injective (a b : Nat) (ha : a < U64) (hb : b < U64) (h : call a = call b) :
    a = b := by
  have hU : 0 < U64 := by norm_num
  simp only [call] at h
  have h4 := xorshift_inj _ _ 33 (by norm_num) h
  have h3 := mul_odd_inj C2 _ _ (by decide)
    (xorshift_lt _ 33 (Nat.mod_lt _ hU)) (xorshift_lt _ 33 (Nat.mod_lt _ hU)) h4
  have h2 := xorshift_inj _ _ 33 (by norm_num) h3
  have h1 := mul_odd_inj C1 _ _ (by decide) (xorshift_lt a 33 ha) (xorshift_lt b 33 hb) h2
  exact xorshift_inj _ _ 33 (by norm_num) h1

theorem call_surjective (y : Nat) (hy : y < U64) : ∃ x, x < U64 ∧ call x = y :=
  surj_of_inj_lt U64 call call_lt_U64 call_injective y hy

end MurFinHash

/-! ## K-wise hash: accesses and accumulator -/

namespace nosiam

theorem foldl_step_reads (x : Nat) (keys l : List Nat) (st : Nat × Nat) (r : List Nat) :
    l.foldl (i61hash_step_reads x keys) (st, r) = (l.foldl (i61hash_step x keys) st, r ++ l) := by
  induction l generalizing st r with
  | nil => simp
  | cons i t ih =>
    rw [List.foldl_cons, List.foldl_cons]
    simp only [i61hash_step_reads]
    rw [ih]
    simp

/-- The instrumented function computes what `i61hash` computes. -/
theorem i61hash_reads_fst (x : Nat) (keys : List Nat) :
    (i61hash_reads x keys).1 = i61hash x keys := by
  simp only [i61hash_reads, i61hash, foldl_step_reads]

theorem i61hash_reads_snd (x : Nat) (keys : List Nat) :
    (i61hash_reads x keys).2 = [1, 0] ++ List.range' 2 (keys.length - 2) := by
  simp only [i61hash_reads, foldl_step_reads]

/-- From two coefficients on, every index read is inside the array. -/
theorem i61hash_reads_lt (x : Nat) (keys : List Nat) (hk : 2 ≤ keys.length) :
    ∀ i ∈ (i61hash_reads x keys).2, i < keys.length := by
  intro i hi
  rw [i61hash_reads_snd] at hi
  simp only [List.cons_append, List.nil_append, List.mem_cons, List.mem_range'_1] at hi
  omega

theorem polyEval_append (x : Nat) (l : List Nat) (c : Nat) :
    polyEval x (l ++ [c]) = polyEval x l + c * x ^ l.length := by
  induction l with
  | nil => simp [polyEval]
  | cons a t ih =>
    show a + x * polyEval x (t ++ [c]) = (a + x * polyEval x t) + c * x ^ (t.length + 1)
    rw [ih]
    ring

theorem polyEval_take_succ (x : Nat) (keys : List Nat) (n : Nat) (hn : n < keys.length) :
    polyEval x (keys.take (n + 1)) = polyEval x (keys.take n) + keys.getD n 0 * x ^ n := by
  have h1 : keys.take (n + 1) = keys.take n ++ [keys.getD n 0] := by
    rw [List.getD_eq_getElem keys 0 hn, ← List.take_concat_get keys n hn, List.concat_eq_append]
  have h2 : (keys.take n).length = n := by
    rw [List.length_take]
    omega
  rw [h1, polyEval_append, h2]

theorem getD_lt (keys : List Nat) (hc : ∀ c ∈ keys, c < mod) (i : Nat) : keys.getD i 0 < mod := by
  by_cases hi : i < keys.length
  · rw [List.getD_eq_getElem keys 0 hi]
    exact hc _ (List.getElem_mem hi)
  · rw [List.getD_eq_default keys 0 (by omega)]
    decide

/-- The exact sum of one pass stays under the bound of the next pass. -/
theorem i61hash_sum_bound (x : Nat) (keys : List Nat) (st : Nat × Nat) (m : Nat)
    (hst : st.1 + 1 ≤ if m ≤ 6 then (m + 2) * mod else (m - 5) * mod)
    (hst2 : st.2 < U64) (hx : x < U64) (hm : m ≤ 12) (hc : ∀ c ∈ keys, c < mod) :
    i61hash_sum x keys st (2 + m) + 1
      ≤ if m + 1 ≤ 6 then (m + 1 + 2) * mod else (m + 1 - 5) * mod := by
  have hcm := getD_lt keys hc (2 + m)
  have hst1 : st.1 < U64 := by
    simp only [mod, U64] at *
    split at hst <;> omega
  have hxp := mulmod61_le st.2 x hst2 hx
  have hxp2 : mulmod61 st.2 x < U64 := lt_of_le_of_lt hxp (by decide)
  have ht := mulmod61_le (mulmod61 st.2 x) (keys.getD (2 + m) 0) hxp2
    (lt_trans hcm (by decide))
  have hr := mod61_u64_lt st.1 hst1
  unfold i61hash_sum
  simp only []
  generalize mulmod61 (mulmod61 st.2 x) (keys.getD (2 + m) 0) = term at ht ⊢
  generalize mod61_u64 st.1 = red at hr ⊢
  simp only [mod, U64] at *
  split_ifs at hst ⊢ <;> omega

/-- The state of the loop of `i61hash` after `m` passes. -/
theorem i61hash_invariant (x : Nat) (keys : List Nat) (hx : x < U64)
    (hk15 : keys.length ≤ 15) (hc : ∀ c ∈ keys, c < mod) (m : Nat) (hm : m + 2 ≤ keys.length) :
    ((List.range' 2 m).foldl (i61hash_step x keys)
        ((mulmod61 x (keys.getD 1 0) + keys.getD 0 0) % U64, x)).1 + 1
      ≤ (if m ≤ 6 then (m + 2) * mod else (m - 5) * mod)
    ∧ ((List.range' 2 m).foldl (i61hash_step x keys)
        ((mulmod61 x (keys.getD 1 0) + keys.getD 0 0) % U64, x)).2 < U64
    ∧ ((List.range' 2 m).foldl (i61hash_step x keys)
        ((mulmod61 x (keys.getD 1 0) + keys.getD 0 0) % U64, x)).1
        ≡ polyEval x (keys.take (m + 2)) [MOD mod]
    ∧ ((List.range' 2 m).foldl (i61hash_step x keys)
        ((mulmod61 x (keys.getD 1 0) + keys.getD 0 0) % U64, x)).2
        ≡ x ^ (m + 1) [MOD mod] := by
  induction m with
  | zero =>
    have h1 := getD_lt keys hc 1
    have h0 := getD_lt keys hc 0
    have hle := mulmod61_le x (keys.getD 1 0) hx (lt_trans h1 (by decide))
    have hmod : mulmod61 x (keys.getD 1 0) ≡ x * keys.getD 1 0 [MOD mod] :=
      mulmod61_mod x (keys.getD 1 0) hx (lt_trans h1 (by decide))
    have hnw : (mulmod61 x (keys.getD 1 0) + keys.getD 0 0) % U64
        = mulmod61 x (keys.getD 1 0) + keys.getD 0 0 := by
      apply Nat.mod_eq_of_lt
      simp only [mod, U64] at *
      omega
    have hp : polyEval x (keys.take 2) = keys.getD 0 0 + keys.getD 1 0 * x ^ 1 := by
      rw [polyEval_take_succ x keys 1 (by omega), polyEval_take_succ x keys 0 (by omega)]
      simp [polyEval]
    simp only [List.range'_zero, List.foldl_nil, hnw, Nat.zero_add]
    refine ⟨?_, hx, ?_, ?_⟩
    · simp only [mod] at *
      simp only [Nat.zero_le, if_true]
      omega
    · rw [hp, Nat.add_comm, pow_one, Nat.mul_comm (keys.getD 1 0)]
      exact Nat.ModEq.add_left _ hmod
    · rw [pow_one]
  | succ m ih =>
    obtain ⟨hb, h2, hp, hxp⟩ := ih (by omega)
    rw [List.range'_1_concat, List.foldl_append, List.foldl_cons, List.foldl_nil]
    generalize (List.range' 2 m).foldl (i61hash_step x keys)
      ((mulmod61 x (keys.getD 1 0) + keys.getD 0 0) % U64, x) = st at hb h2 hp hxp ⊢
    have hsum := i61hash_sum_bound x keys st m hb h2 hx (by omega) hc
    have hst1 : st.1 < U64 := by
      simp only [mod, U64] at *
      split at hb <;> omega
    have hcm := getD_lt keys hc (2 + m)
    have hxle := mulmod61_le st.2 x h2 hx
    have hx2 : mulmod61 st.2 x < U64 := lt_of_le_of_lt hxle (by decide)
    have hxmod : mulmod61 st.2 x ≡ st.2 * x [MOD mod] := mulmod61_mod st.2 x h2 hx
    have htmod : mulmod61 (mulmod61 st.2 x) (keys.getD (2 + m) 0)
        ≡ mulmod61 st.2 x * keys.getD (2 + m) 0 [MOD mod] :=
      mulmod61_mod _ _ hx2 (lt_trans hcm (by decide))
    have hred : (if (2 + m) % 8 = 0 then mod61_u64 st.1 else st.1) ≡ st.1 [MOD mod] := by
      split
      · exact mod61_u64_mod st.1 hst1
      · exact Nat.ModEq.refl _
    have hstep1 : (i61hash_step x keys st (2 + m)).1 = i61hash_sum x keys st (2 + m) := by
      show i61hash_sum x keys st (2 + m) % U64 = _
      apply Nat.mod_eq_of_lt
      simp only [mod, U64] at *
      split at hsum <;> omega
    have hstep2 : (i61hash_step x keys st (2 + m)).2 = mulmod61 st.2 x := rfl
    have hpow : mulmod61 st.2 x ≡ x ^ (m + 1 + 1) [MOD mod] := by
      rw [pow_succ]
      exact hxmod.trans (Nat.ModEq.mul_right _ hxp)
    refine ⟨?_, ?_, ?_, ?_⟩
    · rw [hstep1]
      exact hsum
    · rw [hstep2]
      exact hx2
    · show (i61hash_step x keys st (2 + m)).1 ≡ polyEval x (keys.take (m + 2 + 1)) [MOD mod]
      rw [hstep1, polyEval_take_succ x keys (m + 2) (by omega)]
      have e : keys.getD (m + 2) 0 = keys.getD (2 + m) 0 := by rw [Nat.add_comm]
      rw [e]
      unfold i61hash_sum
      simp only []
      refine Nat.ModEq.add (hred.trans hp) ?_
      rw [Nat.mul_comm (keys.getD (2 + m) 0)]
      exact htmod.trans (Nat.ModEq.mul_right _ hpow)
    · rw [hstep2]
      exact hpow

theorem i61hash_eq_polyEval (x : Nat) (keys : List Nat) (hx : x < U64)
    (hk2 : 2 ≤ keys.length) (hk15 : keys.length ≤ 15) (hc : ∀ c ∈ keys, c < mod) :
    i61hash x keys = polyEval x keys % mod := by
  obtain ⟨hb, _, hp, _⟩ := i61hash_invariant x keys hx hk15 hc (keys.length - 2) (by omega)
  have e : keys.length - 2 + 2 = keys.length := by omega
  rw [e, List.take_length] at hp
  unfold i61hash
  simp only []
  generalize (List.range' 2 (keys.length - 2)).foldl (i61hash_step x keys)
    ((mulmod61 x (keys.getD 1 0) + keys.getD 0 0) % U64, x) = st at hb hp ⊢
  have hst1 : st.1 < U64 := by
    simp only [mod, U64] at *
    split at hb <;> omega
  have h1 := mod61_u64_lt st.1 hst1
  have h2 : mod61_u64 st.1 % mod = st.1 % mod := mod61_u64_mod st.1 hst1
  rw [← Nat.mod_eq_of_lt h1, h2]
  exact hp

end nosiam

end sketch.hash

/-! # Theorems -/

namespace sketch.hash

/-- C1: a chain of composite hashes (`RecursiveReversibleHash` over
`XorMultiply`, `MultiplyAdd`, `MultiplyAddXor` or `MultiplyAddXoRot<shift>`
with `1 <= shift <= 63`), built from any list of 64-bit seed pairs, satisfies
`inverse(apply(x)) = x` and `apply(inverse(x)) = x` for every 64-bit `x`.
`apply` runs the instances first to last, `inverse` runs their inverses last to
first: for a chain `h :: t`, `apply` is `t` applied to `h(x)` and `inverse` is
`h.inverse` of `t.inverse(y)`. -/
theorem RecursiveReversibleHash_roundtrip (seeds : List (Nat × Nat)) (shift x : Nat)
    (hseeds : ∀ s ∈ seeds, s.1 < U64 ∧ s.2 < U64)
    (hshift1 : 1 ≤ shift) (hshift : shift ≤ 63) (hx : x < U64) :
    ((XorMultiplyNVec seeds).inverse ((XorMultiplyNVec seeds).call x) = x
      ∧ (XorMultiplyNVec seeds).call ((XorMultiplyNVec seeds).inverse x) = x)
    ∧ ((MultiplyAddNVec seeds).inverse ((MultiplyAddNVec seeds).call x) = x
      ∧ (MultiplyAddNVec seeds).call ((MultiplyAddNVec seeds).inverse x) = x)
    ∧ ((MultiplyAddXorNVec seeds).inverse ((MultiplyAddXorNVec seeds).call x) = x
      ∧ (MultiplyAddXorNVec seeds).call ((MultiplyAddXorNVec seeds).inverse x) = x)
    ∧ ((MultiplyAddXoRotNVec shift seeds).inverse ((MultiplyAddXoRotNVec shift seeds).call x) = x
      ∧ (MultiplyAddXoRotNVec shift seeds).call
          ((MultiplyAddXoRotNVec shift seeds).inverse x) = x)
    ∧ (∀ (H : Type) (h : H) (t : List H) (c i : H → Nat → Nat) (y : Nat),
        (RecursiveReversibleHash.mk (h :: t) c i).call y
          = (RecursiveReversibleHash.mk t c i).call (c h y)
        ∧ (RecursiveReversibleHash.mk (h :: t) c i).inverse y
          = i h ((RecursiveReversibleHash.mk t c i).inverse y)) := by
  have a := chain_reversible XorMultiply FusedReversible.call FusedReversible.inverse seeds
    hseeds (fun s1 s2 h1 _ => XorMultiply_reversible s1 s2 h1) x hx
  have b := chain_reversible MultiplyAdd FusedReversible.call FusedReversible.inverse seeds
    hseeds (fun s1 s2 _ h2 => MultiplyAdd_reversible s1 s2 h2) x hx
  have c := chain_reversible MultiplyAddXor FusedReversible3.call FusedReversible3.inverse
    seeds hseeds (fun s1 s2 _ h2 => MultiplyAddXor_reversible s1 s2 h2) x hx
  have d := chain_reversible (MultiplyAddXoRot shift) FusedReversible3.call
    FusedReversible3.inverse seeds hseeds
    (fun s1 s2 _ h2 => MultiplyAddXoRot_reversible shift s1 s2 h2 hshift1 hshift) x hx
  exact ⟨⟨a.2.2.1, a.2.2.2⟩, ⟨b.2.2.1, b.2.2.2⟩, ⟨c.2.2.1, c.2.2.2⟩, ⟨d.2.2.1, d.2.2.2⟩,
    fun H h t c i y => ⟨RecursiveReversibleHash.call_cons h t c i y,
      RecursiveReversibleHash.inverse_cons h t c i y⟩⟩

theorem RecursiveReversibleHash_roundtrip_witness :
    (∀ s ∈ [((5 : Nat), (6 : Nat)), (7, 8)], s.1 < U64 ∧ s.2 < U64)
    ∧ 1 ≤ 13 ∧ 13 ≤ 63 ∧ 100 < U64
    ∧ (MultiplyAddXoRotNVec 13 [(5, 6), (7, 8)]).inverse
        ((MultiplyAddXoRotNVec 13 [(5, 6), (7, 8)]).call 100) = 100
    ∧ (XorMultiplyNVec [(5, 6), (7, 8)]).call
        ((XorMultiplyNVec [(5, 6), (7, 8)]).inverse 100) = 100 :=
  ⟨by decide, by decide, by decide, by decide,
    (RecursiveReversibleHash_roundtrip [(5, 6), (7, 8)] 13 100 (by decide) (by decide)
      (by decide) (by decide)).2.2.2.1.1,
    (RecursiveReversibleHash_roundtrip [(5, 6), (7, 8)] 13 100 (by decide) (by decide)
      (by decide) (by decide)).1.2⟩

/-- C2: for all 64-bit seeds and every 64-bit `x`, each named fused composite
(`XorMultiply`, `MultiplyAdd`, `MultiplyAddXor`, and `MultiplyAddXoRot<shift>`
with `1 <= shift <= 63`) satisfies `inverse(apply(x)) = x` and
`apply(inverse(x)) = x`; in particular `MultiplyAdd(7|1, 11)` applied to 100 and
then inverted gives 100. -/
theorem Fused_roundtrip (seed1 seed2 shift x : Nat) (h1 : seed1 < U64) (h2 : seed2 < U64)
    (hshift1 : 1 ≤ shift) (hshift : shift ≤ 63) (hx : x < U64) :
    ((XorMultiply seed1 seed2).inverse ((XorMultiply seed1 seed2).call x) = x
      ∧ (XorMultiply seed1 seed2).call ((XorMultiply seed1 seed2).inverse x) = x)
    ∧ ((MultiplyAdd seed1 seed2).inverse ((MultiplyAdd seed1 seed2).call x) = x
      ∧ (MultiplyAdd seed1 seed2).call ((MultiplyAdd seed1 seed2).inverse x) = x)
    ∧ ((MultiplyAddXor seed1 seed2).inverse ((MultiplyAddXor seed1 seed2).call x) = x
      ∧ (MultiplyAddXor seed1 seed2).call ((MultiplyAddXor seed1 seed2).inverse x) = x)
    ∧ ((MultiplyAddXoRot shift seed1 seed2).inverse
          ((MultiplyAddXoRot shift seed1 seed2).call x) = x
      ∧ (MultiplyAddXoRot shift seed1 seed2).call
          ((MultiplyAddXoRot shift seed1 seed2).inverse x) = x)
    ∧ (MultiplyAdd (7 ||| 1) 11).inverse ((MultiplyAdd (7 ||| 1) 11).call 100) = 100 := by
  have a := XorMultiply_reversible seed1 seed2 h1 x hx
  have b := MultiplyAdd_reversible seed1 seed2 h2 x hx
  have c := MultiplyAddXor_reversible seed1 seed2 h2 x hx
  have d := MultiplyAddXoRot_reversible shift seed1 seed2 h2 hshift1 hshift x hx
  have e := MultiplyAdd_reversible (7 ||| 1) 11 (by decide) 100 (by decide)
  exact ⟨⟨a.2.2.1, a.2.2.2⟩, ⟨b.2.2.1, b.2.2.2⟩, ⟨c.2.2.1, c.2.2.2⟩, ⟨d.2.2.1, d.2.2.2⟩,
    e.2.2.1⟩

theorem Fused_roundtrip_witness :
    (1337 : Nat) < U64 ∧ 0xe37e28c4271b5a1d < U64 ∧ 1 ≤ 31 ∧ 31 ≤ 63 ∧ 2 ^ 64 - 1 < U64
    ∧ (MultiplyAddXoRot 31 1337 0xe37e28c4271b5a1d).inverse
        ((MultiplyAddXoRot 31 1337 0xe37e28c4271b5a1d).call (2 ^ 64 - 1)) = 2 ^ 64 - 1
    ∧ (MultiplyAddXor 1337 0xe37e28c4271b5a1d).call
        ((MultiplyAddXor 1337 0xe37e28c4271b5a1d).inverse (2 ^ 64 - 1)) = 2 ^ 64 - 1 :=
  ⟨by decide, by decide, by decide, by decide, by decide,
    (Fused_roundtrip 1337 0xe37e28c4271b5a1d 31 (2 ^ 64 - 1) (by decide) (by decide)
      (by decide) (by decide) (by decide)).2.2.2.1.1,
    (Fused_roundtrip 1337 0xe37e28c4271b5a1d 31 (2 ^ 64 - 1) (by decide) (by decide)
      (by decide) (by decide) (by decide)).2.2.1.2⟩

/-- C3: for every 64-bit seed, odd or even, and every 64-bit `x`, each of the
single-operation hashes `InvMul`, `InvAdd` and `InvXor` satisfies
`inverse(apply(x)) = x`.  `InvMul` multiplies by `seed | 1` and, to invert, by
the stored `findMultInverse64(seed | 1)`, which is its inverse modulo 2^64;
`InvAdd` adds the seed and, to invert, adds its negation modulo 2^64;
`InvXor` xors with the seed in both directions. -/
theorem InvH_inverse_call (seed x : Nat) (hs : seed < U64) (hx : x < U64) :
    (InvMul seed).inverse ((InvMul seed).call x) = x
    ∧ (InvAdd seed).inverse ((InvAdd seed).call x) = x
    ∧ (InvXor seed).inverse ((InvXor seed).call x) = x
    ∧ (InvMul seed).call x = (x * (seed ||| 1)) % U64
    ∧ (InvMul seed).inverse x = (x * multinv.findMultInverse64 (seed ||| 1)) % U64
    ∧ ((seed ||| 1) * multinv.findMultInverse64 (seed ||| 1)) % U64 = 1
    ∧ (InvAdd seed).call x = (x + seed) % U64
    ∧ (InvAdd seed).inverse x = (x + (U64 - seed) % U64) % U64
    ∧ (InvXor seed).call x = x ^^^ seed
    ∧ (InvXor seed).inverse x = x ^^^ seed := by
  refine ⟨(InvMul_reversible seed x hx).2.2.1, (InvAdd_reversible seed hs x hx).2.2.1,
    (InvXor_reversible seed hs x hx).2.2.1, ?_, ?_,
    multinv.findMultInverse64_mul (seed ||| 1) (or_one_odd seed), ?_, ?_, ?_, ?_⟩
  · simp [InvMul, InvH.new, InvH.call, Operation.call, op.multiplies]
  · simp [InvMul, InvH.new, InvH.inverse, Operation.call, op.multiplies, multinv.Inverse64]
  · simp [InvAdd, InvH.new, InvH.call, Operation.call, op.plus]
  · simp only [InvAdd, InvH.new, InvH.inverse, Operation.call, op.plus, multinv.Inverse64,
      reduceCtorEq, if_false, Nat.or_zero, U64] at *
    omega
  · simp [InvXor, InvH.new, InvH.call, Operation.call, op.bit_xor]
  · simp [InvXor, InvH.new, InvH.inverse, Operation.call, op.bit_xor, multinv.Inverse64]

theorem InvH_inverse_call_witness :
    (6 : Nat) < U64 ∧ (2 ^ 64 - 1 : Nat) < U64
    ∧ (InvMul 6).inverse ((InvMul 6).call (2 ^ 64 - 1)) = 2 ^ 64 - 1
    ∧ (InvAdd 6).inverse ((InvAdd 6).call (2 ^ 64 - 1)) = 2 ^ 64 - 1
    ∧ (InvXor 6).inverse ((InvXor 6).call (2 ^ 64 - 1)) = 2 ^ 64 - 1 :=
  ⟨by decide, by decide,
    (InvH_inverse_call 6 (2 ^ 64 - 1) (by decide) (by decide)).1,
    (InvH_inverse_call 6 (2 ^ 64 - 1) (by decide) (by decide)).2.1,
    (InvH_inverse_call 6 (2 ^ 64 - 1) (by decide) (by decide)).2.2.1⟩

/-- C4: for every odd 64-bit `x`, `findMultInverse64(x)`, which starts from
`(3 * x) xor 2` and takes exactly four steps `y <- y * (2 - y * x)` in wrapping
64-bit arithmetic, returns a 64-bit `y` with `x * y = 1` modulo 2^64. -/
theorem findMultInverse64_correct (x : Nat) (_hx : x < U64) (hodd : x % 2 = 1) :
    (x * multinv.findMultInverse64 x) % U64 = 1
    ∧ multinv.findMultInverse64 x < U64
    ∧ multinv.findMultInverse64 x
        = multinv.f64 x (multinv.f64 x (multinv.f64 x (multinv.f64 x
            (((3 * x) % U64) ^^^ 2)))) :=
  ⟨multinv.findMultInverse64_mul x hodd, Nat.mod_lt _ (by norm_num), rfl⟩

theorem findMultInverse64_correct_witness :
    (0xe37e28c4271b5a1d : Nat) < U64 ∧ 0xe37e28c4271b5a1d % 2 = 1
    ∧ (0xe37e28c4271b5a1d * multinv.findMultInverse64 0xe37e28c4271b5a1d) % U64 = 1 :=
  ⟨by decide, by decide, (findMultInverse64_correct 0xe37e28c4271b5a1d (by decide) (by decide)).1⟩

/-- C5: the 64-bit `WangHash` is a bijection on the 64-bit integers: it maps
64-bit words to 64-bit words, two 64-bit keys with the same hash are the same
key, and every 64-bit value has exactly one 64-bit preimage. -/
theorem WangHash_bijective :
    (∀ a, WangHash.call a < U64)
    ∧ (∀ a b, a < U64 → b < U64 → WangHash.call a = WangHash.call b → a = b)
    ∧ (∀ y, y < U64 → ∃! x, x < U64 ∧ WangHash.call x = y) := by
  refine ⟨WangHash.call_lt, WangHash.call_inj, ?_⟩
  intro y hy
  obtain ⟨x, hx, hxy⟩ := WangHash.call_surj y hy
  refine ⟨x, ⟨hx, hxy⟩, ?_⟩
  rintro z ⟨hz, hzy⟩
  exact WangHash.call_inj z x hz hx (hzy.trans hxy.symm)

theorem WangHash_bijective_witness :
    (0 : Nat) < U64 ∧ (1 : Nat) < U64
    ∧ (WangHash.call 0 = WangHash.call 1 → (0 : Nat) = 1)
    ∧ (∃! x, x < U64 ∧ WangHash.call x = 0) :=
  ⟨by decide, by decide, WangHash_bijective.2.1 0 1 (by decide) (by decide),
    WangHash_bijective.2.2 0 (by decide)⟩

/-- C6, the code at the failing input: with `k = 16`, `x = 1` and the
coefficients `c[0] = c[8] = ... = c[15] = 2^61 - 2`, all others 0 (every
coefficient below the modulus), the accumulator is reduced at `i = 8` and then
receives eight more terms, reaching `9 * (2^61 - 2) >= 2^64`; it wraps, and
`i61hash` returns `2^61 - 18`, while the polynomial is `2^61 - 10` modulo
`2^61 - 1`. -/
theorem i61hash_wraps_at_sixteen :
    [2305843009213693950, 0, 0, 0, 0, 0, 0, 0, 2305843009213693950, 2305843009213693950,
      2305843009213693950, 2305843009213693950, 2305843009213693950, 2305843009213693950,
      2305843009213693950, 2305843009213693950].length = 16
    ∧ (2305843009213693950 : Nat) < 2 ^ 61 - 1
    ∧ nosiam.i61hash 1
        [2305843009213693950, 0, 0, 0, 0, 0, 0, 0, 2305843009213693950, 2305843009213693950,
          2305843009213693950, 2305843009213693950, 2305843009213693950, 2305843009213693950,
          2305843009213693950, 2305843009213693950] = 2 ^ 61 - 18
    ∧ nosiam.polyEval 1
        [2305843009213693950, 0, 0, 0, 0, 0, 0, 0, 2305843009213693950, 2305843009213693950,
          2305843009213693950, 2305843009213693950, 2305843009213693950, 2305843009213693950,
          2305843009213693950, 2305843009213693950] % (2 ^ 61 - 1) = 2 ^ 61 - 10
    ∧ 9 * 2305843009213693950 ≥ U64 := by
  have e0 : nosiam.mulmod61 1 0 = 0 := nosiam.mulmod61_small 1 0 (by decide)
  have e1 : nosiam.mulmod61 1 1 = 1 := nosiam.mulmod61_small 1 1 (by decide)
  have e2 : nosiam.mulmod61 1 2305843009213693950 = 2305843009213693950 :=
    nosiam.mulmod61_small 1 2305843009213693950 (by decide)
  have e3 : nosiam.mod61_u64 2305843009213693950 = 2305843009213693950 :=
    nosiam.mod61_u64_small _ (by decide)
  have e4 : nosiam.mod61_u64 2305843009213693934 = 2305843009213693934 :=
    nosiam.mod61_u64_small _ (by decide)
  refine ⟨rfl, by decide, ?_, by decide, by decide⟩
  simp [nosiam.i61hash, nosiam.i61hash_step, List.range', U64, e0, e1, e2, e3, e4]

/-- C7: for every `k >= 2`, every 64-bit key `x` and every array of `k` 64-bit
coefficients, `i61hash<k>` returns a value `r` with `r < 2^61 - 1`. -/
theorem i61hash_lt_modulus (x : Nat) (keys : List Nat) (_hx : x < U64)
    (_hk : 2 ≤ keys.length) (_hkeys : ∀ c ∈ keys, c < U64) :
    nosiam.i61hash x keys < 2 ^ 61 - 1 := by
  unfold nosiam.i61hash
  exact nosiam.mod61_u64_lt _
    (nosiam.i61hash_foldl_fst_lt x keys _ _ (Nat.mod_lt _ (by norm_num)))

theorem i61hash_lt_modulus_witness :
    (2 ^ 64 - 1 : Nat) < U64 ∧ 2 ≤ [2 ^ 64 - 1, 2 ^ 64 - 1, 2 ^ 64 - 1].length
    ∧ (∀ c ∈ [2 ^ 64 - 1, 2 ^ 64 - 1, 2 ^ 64 - 1], c < U64)
    ∧ nosiam.i61hash (2 ^ 64 - 1) [2 ^ 64 - 1, 2 ^ 64 - 1, 2 ^ 64 - 1] < 2 ^ 61 - 1 :=
  ⟨by decide, by decide, by decide,
    i61hash_lt_modulus (2 ^ 64 - 1) [2 ^ 64 - 1, 2 ^ 64 - 1, 2 ^ 64 - 1] (by decide)
      (by decide) (by decide)⟩

/-- C8, the code at the failing input: for `x1 = 2^61 - 1` and `x2 = 2^61 + 1`,
both 64-bit, the product is `2^122 - 1`, one pass of the loop gives exactly
`2 * (2^61 - 1)`, the loop stops, and `mulmod61` returns the modulus
`2^61 - 1` itself, which is not below the modulus. -/
theorem mulmod61_returns_modulus :
    (2 ^ 61 - 1 : Nat) < U64 ∧ (2 ^ 61 + 1 : Nat) < U64
    ∧ nosiam.fold128 ((2 ^ 61 - 1) * (2 ^ 61 + 1)) = 2 * (2 ^ 61 - 1)
    ∧ nosiam.mulmod61 (2 ^ 61 - 1) (2 ^ 61 + 1) = 2 ^ 61 - 1
    ∧ ¬ nosiam.mulmod61 (2 ^ 61 - 1) (2 ^ 61 + 1) < nosiam.mod := by
  have hf : nosiam.fold128 ((2 ^ 61 - 1) * (2 ^ 61 + 1)) = 2 * (2 ^ 61 - 1) := by decide
  have hl : nosiam.mod61_u128_loop ((2 ^ 61 - 1) * (2 ^ 61 + 1)) = 2 * (2 ^ 61 - 1) := by
    rw [nosiam.mod61_u128_loop_of_le _ (by rw [hf]; decide), hf]
  have hm : nosiam.mulmod61 (2 ^ 61 - 1) (2 ^ 61 + 1) = 2 ^ 61 - 1 := by
    rw [nosiam.mulmod61_eq _ _ (by decide) (by decide)]
    unfold nosiam.mod61_u128
    simp only [hl]
    decide
  refine ⟨by decide, by decide, hf, hm, ?_⟩
  rw [hm]
  decide

/-- C9: for all 64-bit `x1` and `x2`, `mulmod61(x1, x2)` is congruent to the
integer product `x1 * x2` modulo `2^61 - 1`: the 128-bit product is the exact
product, and every pass of the loop of `mod61` keeps the residue class. -/
theorem mulmod61_congruent (x1 x2 : Nat) (h1 : x1 < U64) (h2 : x2 < U64) :
    nosiam.mulmod61 x1 x2 % (2 ^ 61 - 1) = (x1 * x2) % (2 ^ 61 - 1)
    ∧ ((x1 % U128) * x2) % U128 = x1 * x2
    ∧ (∀ t, t < U128 → nosiam.fold128 t % (2 ^ 61 - 1) = t % (2 ^ 61 - 1)) := by
  refine ⟨nosiam.mulmod61_mod x1 x2 h1 h2, ?_, ?_⟩
  · rw [Nat.mod_eq_of_lt (lt_trans h1 (by norm_num : U64 < U128))]
    exact Nat.mod_eq_of_lt (nosiam.mul_lt_U128 x1 x2 h1 h2)
  · intro t ht
    rw [nosiam.fold128_eq t ht]
    omega

theorem mulmod61_congruent_witness :
    (2 ^ 64 - 1 : Nat) < U64 ∧ (2 ^ 64 - 2 : Nat) < U64
    ∧ nosiam.mulmod61 (2 ^ 64 - 1) (2 ^ 64 - 2) % (2 ^ 61 - 1)
        = ((2 ^ 64 - 1) * (2 ^ 64 - 2)) % (2 ^ 61 - 1) :=
  ⟨by decide, by decide, (mulmod61_congruent (2 ^ 64 - 1) (2 ^ 64 - 2) (by decide) (by decide)).1⟩

/-- C10: for every 64-bit `x`, every three-limb `a` (each limb below 2^32) and
every three-limb `b` with `b[2] < 2^25`, the three values `MultAddPrime89`
assigns to `r[0]`, `r[1]`, `r[2]` fit in 32 bits, so the stores lose nothing,
and the stored `r` has `value(r)` congruent to `value(a) * x + value(b)` modulo
`2^89 - 1`, where `value(l) = l[0] + l[1] * 2^32 + l[2] * 2^64`. -/
theorem MultAddPrime89_correct (x : Nat) (a b : int96_t) (hx : x < U64)
    (ha : ∀ i, a i < U32) (hb : ∀ i, b i < U32) (hb2 : b 2 < 2 ^ 25) :
    ((siam.MultAddPrime89_wide x a b).1 < U32
      ∧ (siam.MultAddPrime89_wide x a b).2.1 < U32
      ∧ (siam.MultAddPrime89_wide x a b).2.2 < U32)
    ∧ (∀ i, siam.MultAddPrime89 x a b i < U32)
    ∧ siam.value (siam.MultAddPrime89 x a b) % (2 ^ 89 - 1)
        = (siam.value a * x + siam.value b) % (2 ^ 89 - 1) := by
  obtain ⟨h2, K, hK⟩ := siam.MultAddPrime89_spec x a b hx ha hb hb2
  have h0 : (siam.MultAddPrime89_wide x a b).1 < U32 := by
    simp only [siam.MultAddPrime89_wide, siam.LOW_eq]
    exact Nat.mod_lt _ (by norm_num)
  have h1 : (siam.MultAddPrime89_wide x a b).2.1 < U32 := by
    simp only [siam.MultAddPrime89_wide, siam.LOW_eq]
    exact Nat.mod_lt _ (by norm_num)
  have hv : siam.value (siam.MultAddPrime89 x a b)
      = (siam.MultAddPrime89_wide x a b).1 + (siam.MultAddPrime89_wide x a b).2.1 * 2 ^ 32
        + (siam.MultAddPrime89_wide x a b).2.2 * 2 ^ 64 := by
    simp only [siam.value, siam.MultAddPrime89, Matrix.cons_val_zero, Matrix.cons_val_one,
      Matrix.head_cons, Matrix.cons_val_two, Matrix.tail_cons]
    rw [Nat.mod_eq_of_lt h0, Nat.mod_eq_of_lt h1, Nat.mod_eq_of_lt h2]
  refine ⟨⟨h0, h1, h2⟩, ?_, ?_⟩
  · intro i
    fin_cases i <;>
      simp only [siam.MultAddPrime89, Matrix.cons_val_zero, Matrix.cons_val_one,
        Matrix.head_cons, Matrix.cons_val_two, Matrix.tail_cons, Fin.zero_eta, Fin.mk_one,
        Fin.reduceFinMk] <;>
      exact Nat.mod_lt _ (by norm_num)
  · rw [hv, ← hK, Nat.add_mul_mod_self_left]

theorem MultAddPrime89_correct_witness :
    (2 ^ 64 - 1 : Nat) < U64
    ∧ (∀ i, (![2 ^ 32 - 1, 2 ^ 32 - 1, 2 ^ 32 - 1] : int96_t) i < U32)
    ∧ (∀ i, (![2 ^ 32 - 1, 2 ^ 32 - 1, 2 ^ 25 - 1] : int96_t) i < U32)
    ∧ (![2 ^ 32 - 1, 2 ^ 32 - 1, 2 ^ 25 - 1] : int96_t) 2 < 2 ^ 25
    ∧ siam.value (siam.MultAddPrime89 (2 ^ 64 - 1) ![2 ^ 32 - 1, 2 ^ 32 - 1, 2 ^ 32 - 1]
          ![2 ^ 32 - 1, 2 ^ 32 - 1, 2 ^ 25 - 1]) % (2 ^ 89 - 1)
        = (siam.value ![2 ^ 32 - 1, 2 ^ 32 - 1, 2 ^ 32 - 1] * (2 ^ 64 - 1)
            + siam.value ![2 ^ 32 - 1, 2 ^ 32 - 1, 2 ^ 25 - 1]) % (2 ^ 89 - 1) :=
  ⟨by decide, by decide, by decide, by decide,
    (MultAddPrime89_correct (2 ^ 64 - 1) ![2 ^ 32 - 1, 2 ^ 32 - 1, 2 ^ 32 - 1]
      ![2 ^ 32 - 1, 2 ^ 32 - 1, 2 ^ 25 - 1] (by decide) (by decide) (by decide) (by decide)).2.2⟩

/-- C11: for every three-limb value `r` with each limb below 2^32,
`Mod64Prime89(r)` is the low 64 bits of
`(r[0] + r[1] * 2^32 + r[2] * 2^64) mod (2^89 - 1)`; in particular the limb
pattern of the modulus itself, `r = (2^32 - 1, 2^32 - 1, 2^25 - 1)`, whose
value is `2^89 - 1`, reduces to 0. -/
theorem Mod64Prime89_correct (r : int96_t) (hr : ∀ i, r i < U32) :
    siam.Mod64Prime89 r = (siam.value r % (2 ^ 89 - 1)) % U64
    ∧ siam.value ![2 ^ 32 - 1, 2 ^ 32 - 1, 2 ^ 25 - 1] = 2 ^ 89 - 1
    ∧ siam.Mod64Prime89 ![2 ^ 32 - 1, 2 ^ 32 - 1, 2 ^ 25 - 1] = 0 :=
  ⟨siam.Mod64Prime89_eq r hr, by decide, by decide⟩

theorem Mod64Prime89_correct_witness :
    (∀ i, (![5, 2 ^ 32 - 1, 2 ^ 32 - 1] : int96_t) i < U32)
    ∧ siam.Mod64Prime89 ![5, 2 ^ 32 - 1, 2 ^ 32 - 1]
        = (siam.value ![5, 2 ^ 32 - 1, 2 ^ 32 - 1] % (2 ^ 89 - 1)) % U64 :=
  ⟨by decide, (Mod64Prime89_correct ![5, 2 ^ 32 - 1, 2 ^ 32 - 1] (by decide)).1⟩

/-- C12: for every lane count `W` and every register of `W` 64-bit lanes, the
vector form of `WangHash`, built from lane-wise add, shift left, shift right,
xor and complement with 64-bit wraparound, returns a register whose lane `i`
is the scalar 64-bit `WangHash` of input lane `i`, for every `i < W`; the same
holds for the two-lane `__m128i` overload. -/
theorem WangHash_vector_lanes (W : Nat) (element : VType W) (_h : ∀ i, element i < U64) :
    (∀ i, WangHash.call_Type element i = WangHash.call (element i))
    ∧ (∀ (key : VType 2), (∀ i, key i < U64) →
        ∀ i, WangHash.call_m128i key i = WangHash.call (key i)) :=
  ⟨WangHash.call_Type_lane element, fun key _ => WangHash.call_m128i_lane key⟩

theorem WangHash_vector_lanes_witness :
    (∀ i, (![0, 1, 2 ^ 63, 2 ^ 64 - 1] : VType 4) i < U64)
    ∧ (∀ i, WangHash.call_Type (![0, 1, 2 ^ 63, 2 ^ 64 - 1] : VType 4) i
        = WangHash.call ((![0, 1, 2 ^ 63, 2 ^ 64 - 1] : VType 4) i))
    ∧ (∀ i, WangHash.call_m128i ![2 ^ 64 - 1, 7] i
        = WangHash.call ((![2 ^ 64 - 1, 7] : VType 2) i)) :=
  ⟨by decide, (WangHash_vector_lanes 4 ![0, 1, 2 ^ 63, 2 ^ 64 - 1] (by decide)).1,
    (WangHash_vector_lanes 4 ![0, 1, 2 ^ 63, 2 ^ 64 - 1] (by decide)).2 ![2 ^ 64 - 1, 7]
      (by decide)⟩

/-- C13: for every PRNG state `(s, inc)`, one call of `pcg32_random_r` sets
the state to `s * 6364136223846793005 + inc` modulo 2^64, leaves `inc`
unchanged, and returns a 32-bit value that is `t` rotated right by `s >> 59`
(bit `i` of the result is bit `(i + (s >> 59)) mod 32` of `t`, and `s >> 59`
is below 32), where `t` is the low 32 bits of `((s >> 18) xor s) >> 27`, taken
from the state before the advance. -/
theorem pcg32_random_r_correct (rng : pcg32_random_t) (hs : rng.state < U64)
    (_hinc : rng.inc < U64) :
    (pcg32_random_r rng).2.state = (rng.state * 6364136223846793005 + rng.inc) % U64
    ∧ (pcg32_random_r rng).2.inc = rng.inc
    ∧ rng.state >>> 59 < 32
    ∧ (pcg32_random_r rng).1 < U32
    ∧ (∀ i, i < 32 →
        (pcg32_random_r rng).1.testBit i
          = ((((rng.state >>> 18) ^^^ rng.state) >>> 27) % U32).testBit
              ((i + (rng.state >>> 59)) % 32)) := by
  refine ⟨?_, rfl, shiftRight_59_lt rng.state hs, pcg32_random_r_fst_lt rng hs, ?_⟩
  · simp only [pcg32_random_r, Nat.mod_add_mod]
  · intro i hi
    rw [pcg32_random_r_fst rng hs]
    exact rotr32_testBit _ _ i (Nat.mod_lt _ (by norm_num)) (shiftRight_59_lt rng.state hs) hi

theorem pcg32_random_r_correct_witness :
    (0xdeadbeefcafebabe : Nat) < U64 ∧ (3930499866110305181 : Nat) < U64
    ∧ (pcg32_random_r ⟨0xdeadbeefcafebabe, 3930499866110305181⟩).2.state
        = (0xdeadbeefcafebabe * 6364136223846793005 + 3930499866110305181) % U64
    ∧ (pcg32_random_r ⟨0xdeadbeefcafebabe, 3930499866110305181⟩).1 < U32 :=
  ⟨by decide, by decide,
    (pcg32_random_r_correct ⟨0xdeadbeefcafebabe, 3930499866110305181⟩ (by decide)
      (by decide)).1,
    (pcg32_random_r_correct ⟨0xdeadbeefcafebabe, 3930499866110305181⟩ (by decide)
      (by decide)).2.2.2.1⟩

/-- C15: for all 64-bit `seed1`, `seed2` and `x`, `MultiplyAddXor(seed1, seed2)`
applied to `x` is `((x * (seed1 | 1)) + seed2) xor ((seed1 * seed2 + seed2) | 1)`
in wrapping 64-bit arithmetic: the seed of the third stage is
`(seed1 * seed2 + seed2) | 1`, computed from the two seeds the caller gave. -/
theorem MultiplyAddXor_call_eq (seed1 seed2 x : Nat) (_h1 : seed1 < U64) (_h2 : seed2 < U64)
    (_hx : x < U64) :
    (MultiplyAddXor seed1 seed2).call x
      = ((x * (seed1 ||| 1) + seed2) % U64) ^^^ (((seed1 * seed2 + seed2) % U64) ||| 1)
    ∧ (MultiplyAddXor seed1 seed2).op3.seed_ = ((seed1 * seed2 + seed2) % U64) ||| 1 := by
  constructor <;>
    simp [MultiplyAddXor, FusedReversible3.new, FusedReversible3.call, InvMul, InvAdd, InvXor,
      InvH.new, InvH.call, Operation.call, op.multiplies, op.plus, op.bit_xor, Nat.mod_add_mod]

theorem MultiplyAddXor_call_eq_witness :
    (1337 : Nat) < U64 ∧ (0xe37e28c4271b5a1d : Nat) < U64 ∧ (100 : Nat) < U64
    ∧ (MultiplyAddXor 1337 0xe37e28c4271b5a1d).call 100
      = ((100 * (1337 ||| 1) + 0xe37e28c4271b5a1d) % U64)
          ^^^ (((1337 * 0xe37e28c4271b5a1d + 0xe37e28c4271b5a1d) % U64) ||| 1) :=
  ⟨by decide, by decide, by decide,
    (MultiplyAddXor_call_eq 1337 0xe37e28c4271b5a1d 100 (by decide) (by decide)
      (by decide)).1⟩

/-- C16: the increment of the PRNG is odd in every reachable state:
`PCGen(seed, inc)` stores `inc | 1` for every seed and selector, even
selectors included; `operator()`, `make_u64` (in either order of its two
calls) and `seed(newseed)` leave the increment as it is; so every state reached
from the constructor by these operations has an odd increment. -/
theorem PCGen_inc_odd :
    (∀ seed inc, (PCGen.new seed inc).inc = inc ||| 1 ∧ (PCGen.new seed inc).inc % 2 = 1)
    ∧ (∀ rng, (PCGen.call rng).2.inc = rng.inc)
    ∧ (∀ leftFirst rng, (PCGen.make_u64 leftFirst rng).2.inc = rng.inc)
    ∧ (∀ rng newseed, (PCGen.seed rng newseed).inc = rng.inc)
    ∧ (∀ rng, PCGen.Reachable rng → rng.inc % 2 = 1) :=
  ⟨fun _ _ => ⟨rfl, Nat.or_mod_two_eq_one.mpr (Or.inr rfl)⟩, fun _ => rfl,
    fun leftFirst _ => by cases leftFirst <;> rfl,
    fun _ _ => rfl, PCGen.Reachable.inc_odd⟩

theorem PCGen_inc_odd_witness :
    PCGen.Reachable (PCGen.make_u64 false (PCGen.seed (PCGen.call (PCGen.new 42 4)).2 7)).2
    ∧ (PCGen.new 42 4).inc = 5
    ∧ (PCGen.make_u64 false (PCGen.seed (PCGen.call (PCGen.new 42 4)).2 7)).2.inc % 2 = 1 :=
  ⟨PCGen.Reachable.make_u64 false _ (PCGen.Reachable.seed _ 7
      (PCGen.Reachable.call _ (PCGen.Reachable.new 42 4 (by decide) (by decide))) (by decide)),
    (PCGen_inc_odd.1 42 4).1,
    PCGen_inc_odd.2.2.2.2 _ (PCGen.Reachable.make_u64 false _ (PCGen.Reachable.seed _ 7
      (PCGen.Reachable.call _ (PCGen.Reachable.new 42 4 (by decide) (by decide)))
      (by decide)))⟩

/-- C17: for every shift amount `n` in `{1, 2, 4, 8, 16, 32}` (each divides
the word width 64, and the unrolling goes through `64 / n` steps) and every
64-bit `v`, the unrolled inverse undoes the shift-xor in both forms:
`InvRShiftXor<n>(RShiftXor<n>(v)) = v` and
`InvLShiftXor<n>(LShiftXor<n>(v)) = v`. -/
theorem ShiftXor_inverse_of_divisor (n v : Nat) (hn : n ∈ [1, 2, 4, 8, 16, 32])
    (hv : v < U64) :
    (64 / n) * n = 64
    ∧ InvRShiftXor n (RShiftXor n v) = v
    ∧ InvLShiftXor n (LShiftXor n v) = v := by
  have h1 : 1 ≤ n ∧ (64 / n) * n = 64 := by
    simp only [List.mem_cons, List.mem_singleton, List.not_mem_nil, or_false] at hn
    rcases hn with h | h | h | h | h | h <;> subst h <;> decide
  exact ⟨h1.2, InvRShiftXor_RShiftXor n v h1.1 hv, InvLShiftXor_LShiftXor n v h1.1⟩

theorem ShiftXor_inverse_of_divisor_witness :
    8 ∈ [1, 2, 4, 8, 16, 32] ∧ (0xdeadbeefcafebabe : Nat) < U64
    ∧ InvRShiftXor 8 (RShiftXor 8 0xdeadbeefcafebabe) = 0xdeadbeefcafebabe
    ∧ InvLShiftXor 8 (LShiftXor 8 0xdeadbeefcafebabe) = 0xdeadbeefcafebabe :=
  ⟨by decide, by decide,
    (ShiftXor_inverse_of_divisor 8 0xdeadbeefcafebabe (by decide) (by decide)).2.1,
    (ShiftXor_inverse_of_divisor 8 0xdeadbeefcafebabe (by decide) (by decide)).2.2⟩

/-- C18, refuted: there is no shift amount `n` with `1 <= n <= 63` that does
not divide 64, and no 64-bit `v`, with `InvRShiftXor<n>(RShiftXor<n>(v)) != v`. -/
theorem InvRShiftXor_no_failing_shift :
    ¬ ∃ n v, 1 ≤ n ∧ n ≤ 63 ∧ ¬ (n ∣ 64) ∧ v < U64 ∧ InvRShiftXor n (RShiftXor n v) ≠ v := by
  rintro ⟨n, v, hn, _, _, hv, hne⟩
  exact hne (InvRShiftXor_RShiftXor n v hn hv)

/-- C18, amended: for every shift amount `n` with `1 <= n <= 63`, whether or
not it divides 64, and every 64-bit `v`,
`InvRShiftXor<n>(RShiftXor<n>(v)) = v`: the `64 / n` steps of the unrolling
always reach the lowest bit, because `(64 / n + 1) * n > 64`. -/
theorem InvRShiftXor_inverse_every_shift (n v : Nat) (hn1 : 1 ≤ n) (_hn : n ≤ 63)
    (hv : v < U64) :
    InvRShiftXor n (RShiftXor n v) = v ∧ 64 < (64 / n + 1) * n := by
  refine ⟨InvRShiftXor_RShiftXor n v hn1 hv, ?_⟩
  have h := Nat.lt_mul_div_succ 64 hn1
  rwa [Nat.mul_comm] at h

theorem InvRShiftXor_inverse_every_shift_witness :
    1 ≤ 3 ∧ 3 ≤ 63 ∧ ¬ (3 ∣ 64) ∧ (0xdeadbeefcafebabe : Nat) < U64
    ∧ InvRShiftXor 3 (RShiftXor 3 0xdeadbeefcafebabe) = 0xdeadbeefcafebabe :=
  ⟨by decide, by decide, by decide, by decide,
    (InvRShiftXor_inverse_every_shift 3 0xdeadbeefcafebabe (by decide) (by decide)
      (by decide)).1⟩

/-- C19, refuted: there are no two distinct 32-bit keys with the same 32-bit
`WangHash`. -/
theorem WangHash32_no_collision :
    ¬ ∃ a b, a < U32 ∧ b < U32 ∧ a ≠ b ∧ WangHash.call32 a = WangHash.call32 b := by
  rintro ⟨a, b, ha, hb, hne, h⟩
  exact hne (WangHash.call32_inj a b ha hb h)

/-- C19, amended: the 32-bit form of `WangHash` is a bijection on the 32-bit
integers: it maps 32-bit words to 32-bit words, two 32-bit keys with the same
hash are the same key, and every 32-bit value has exactly one 32-bit
preimage. -/
theorem WangHash32_bijective :
    (∀ a, WangHash.call32 a < U32)
    ∧ (∀ a b, a < U32 → b < U32 → WangHash.call32 a = WangHash.call32 b → a = b)
    ∧ (∀ y, y < U32 → ∃! x, x < U32 ∧ WangHash.call32 x = y) := by
  refine ⟨WangHash.call32_lt, WangHash.call32_inj, ?_⟩
  intro y hy
  obtain ⟨x, hx, hxy⟩ := WangHash.call32_surj y hy
  refine ⟨x, ⟨hx, hxy⟩, ?_⟩
  rintro z ⟨hz, hzy⟩
  exact WangHash.call32_inj z x hz hx (hzy.trans hxy.symm)

theorem WangHash32_bijective_witness :
    (0 : Nat) < U32 ∧ (2 ^ 32 - 1 : Nat) < U32
    ∧ (WangHash.call32 0 = WangHash.call32 (2 ^ 32 - 1) → (0 : Nat) = 2 ^ 32 - 1)
    ∧ (∃! x, x < U32 ∧ WangHash.call32 x = 0) :=
  ⟨by decide, by decide, WangHash32_bijective.2.1 0 (2 ^ 32 - 1) (by decide) (by decide),
    WangHash32_bijective.2.2 0 (by decide)⟩

/-- C20: for every 128-bit input the loop of `mod61` (the fold
`x = (x >> 61) + (x & (2^61 - 1))`, repeated while `x > 2 * (2^61 - 1)`) ends
after at most two folds, and for every 64-bit input the loop of the 64-bit
overload ends after exactly one fold.  The loop returns the input folded as
many times as the counter says, and two folds do occur (input `2^128 - 1`). -/
theorem mod61_fold_count :
    (∀ x, x < U128 →
      1 ≤ nosiam.mod61_u128_folds x ∧ nosiam.mod61_u128_folds x ≤ 2
      ∧ nosiam.mod61_u128_loop x
          = Nat.iterate nosiam.fold128 (nosiam.mod61_u128_folds x) x)
    ∧ (∀ x, x < U64 →
      nosiam.mod61_u64_folds x = 1 ∧ nosiam.mod61_u64_loop x = nosiam.fold64 x)
    ∧ nosiam.mod61_u128_folds (2 ^ 128 - 1) = 2 :=
  ⟨fun x hx => ⟨nosiam.mod61_u128_folds_pos x, nosiam.mod61_u128_folds_le x hx,
      nosiam.mod61_u128_loop_eq_iterate x⟩,
    fun x hx => ⟨nosiam.mod61_u64_folds_eq x hx, nosiam.mod61_u64_loop_eq x hx⟩,
    nosiam.mod61_u128_folds_max⟩

theorem mod61_fold_count_witness :
    ((2 ^ 61 - 1) * (2 ^ 61 + 1) : Nat) < U128 ∧ (2 ^ 64 - 1 : Nat) < U64
    ∧ nosiam.mod61_u128_folds ((2 ^ 61 - 1) * (2 ^ 61 + 1)) ≤ 2
    ∧ nosiam.mod61_u64_folds (2 ^ 64 - 1) = 1 :=
  ⟨by decide, by decide,
    (mod61_fold_count.1 ((2 ^ 61 - 1) * (2 ^ 61 + 1)) (by decide)).2.1,
    (mod61_fold_count.2.1 (2 ^ 64 - 1) (by decide)).1⟩

/-- C23: the scalar finalizer `MurFinHash` (three steps `key ^= key >> 33`
with wrapping multiplications by the odd constants `0xff51afd7ed558ccd` and
`0xc4ceb9fe1a85ec53` between them) is a bijection on the 64-bit integers: it
maps 64-bit words to 64-bit words, two 64-bit keys with the same hash are the
same key, and every 64-bit value has exactly one 64-bit preimage; `finalize`
is the same function. -/
theorem MurFinHash_bijective :
    (MurFinHash.C1 % 2 = 1 ∧ MurFinHash.C2 % 2 = 1)
    ∧ (∀ a, MurFinHash.call a < U64)
    ∧ (∀ a b, a < U64 → b < U64 → MurFinHash.call a = MurFinHash.call b → a = b)
    ∧ (∀ y, y < U64 → ∃! x, x < U64 ∧ MurFinHash.call x = y)
    ∧ (∀ a, finalize a = MurFinHash.call a) := by
  refine ⟨⟨by decide, by decide⟩, MurFinHash.call_lt_U64, MurFinHash.call_injective, ?_,
    fun _ => rfl⟩
  intro y hy
  obtain ⟨x, hx, hxy⟩ := MurFinHash.call_surjective y hy
  refine ⟨x, ⟨hx, hxy⟩, ?_⟩
  rintro z ⟨hz, hzy⟩
  exact MurFinHash.call_injective z x hz hx (hzy.trans hxy.symm)

theorem MurFinHash_bijective_witness :
    (0 : Nat) < U64 ∧ (1 : Nat) < U64
    ∧ (MurFinHash.call 0 = MurFinHash.call 1 → (0 : Nat) = 1)
    ∧ (∃! x, x < U64 ∧ MurFinHash.call x = 1) :=
  ⟨by decide, by decide, MurFinHash_bijective.2.2.1 0 1 (by decide) (by decide),
    MurFinHash_bijective.2.2.2.1 1 (by decide)⟩

/-- C21: for every `k` with `2 <= k <= 15`, every 64-bit key `x` and every
coefficient array with each `c[i] < 2^61 - 1` (as `make_coefficients`
produces), the sums that `i61hash<k>` stores in the 64-bit `tsum` stay below
`2^64`: the first sum `mulmod61(x, keys[1]) + keys[0]`, and in every pass of
the loop the sum `tsum + mulmod61(xp, keys[i])`, which is what the pass stores;
and the returned value is `(sum over i < k of c[i] * x^i) mod (2^61 - 1)`. -/
theorem i61hash_no_wrap_up_to_fifteen (x : Nat) (keys : List Nat) (hx : x < U64)
    (hk2 : 2 ≤ keys.length) (hk15 : keys.length ≤ 15) (hc : ∀ c ∈ keys, c < 2 ^ 61 - 1) :
    nosiam.mulmod61 x (keys.getD 1 0) + keys.getD 0 0 < U64
    ∧ (∀ m, m + 3 ≤ keys.length →
        nosiam.i61hash_sum x keys
          ((List.range' 2 m).foldl (nosiam.i61hash_step x keys)
            ((nosiam.mulmod61 x (keys.getD 1 0) + keys.getD 0 0) % U64, x)) (2 + m) < U64)
    ∧ (∀ st i, (nosiam.i61hash_step x keys st i).1 = nosiam.i61hash_sum x keys st i % U64)
    ∧ nosiam.i61hash x keys = nosiam.polyEval x keys % (2 ^ 61 - 1)
    ∧ (∀ mt, ∀ c ∈ make_coefficients mt, c < 2 ^ 61 - 1) := by
  have hc2 : ∀ c ∈ keys, c < nosiam.mod := hc
  refine ⟨?_, ?_, fun _ _ => rfl, nosiam.i61hash_eq_polyEval x keys hx hk2 hk15 hc2, ?_⟩
  · have h1 := nosiam.getD_lt keys hc2 1
    have h0 := nosiam.getD_lt keys hc2 0
    have hle := nosiam.mulmod61_le x (keys.getD 1 0) hx (lt_trans h1 (by decide))
    simp only [nosiam.mod, U64] at *
    omega
  · intro m hm
    obtain ⟨hb, h2, _, _⟩ := nosiam.i61hash_invariant x keys hx hk15 hc2 m (by omega)
    have hs := nosiam.i61hash_sum_bound x keys _ m hb h2 hx (by omega) hc2
    simp only [nosiam.mod, U64] at *
    split at hs <;> omega
  · intro mt c hmem
    simp only [make_coefficients, List.mem_map] at hmem
    obtain ⟨e, _, rfl⟩ := hmem
    exact Nat.mod_lt _ (by decide)

theorem i61hash_no_wrap_up_to_fifteen_witness :
    (2 ^ 64 - 1 : Nat) < U64 ∧ 2 ≤ (List.replicate 15 (2 ^ 61 - 2)).length
    ∧ (List.replicate 15 (2 ^ 61 - 2)).length ≤ 15
    ∧ (∀ c ∈ List.replicate 15 (2 ^ 61 - 2), c < 2 ^ 61 - 1)
    ∧ nosiam.i61hash (2 ^ 64 - 1) (List.replicate 15 (2 ^ 61 - 2))
        = nosiam.polyEval (2 ^ 64 - 1) (List.replicate 15 (2 ^ 61 - 2)) % (2 ^ 61 - 1) :=
  ⟨by decide, by decide, by decide, by decide,
    (i61hash_no_wrap_up_to_fifteen (2 ^ 64 - 1) (List.replicate 15 (2 ^ 61 - 2)) (by decide)
      (by decide) (by decide) (by decide)).2.2.2.1⟩

/-- C22, the code at the failing input: with `k = 1`, whatever the key `x` and
the single coefficient `c`, `KWiseIndependentPolynomialHash<1>::operator()`
calls `i61hash<1>`, which reads `keys[1]` and then `keys[0]`; index 1 is
outside the one-element array. -/
theorem i61hash_reads_outside_single :
    ∀ x c : Nat,
      [c].length = 1
      ∧ KWiseIndependentPolynomialHash.call [c] x = (nosiam.i61hash_reads x [c]).1
      ∧ (nosiam.i61hash_reads x [c]).2 = [1, 0]
      ∧ (∃ i ∈ (nosiam.i61hash_reads x [c]).2, ¬ i < [c].length) := by
  intro x c
  have h : (nosiam.i61hash_reads x [c]).2 = [1, 0] := by
    rw [nosiam.i61hash_reads_snd]
    rfl
  refine ⟨rfl, (nosiam.i61hash_reads_fst x [c]).symm, h, 1, ?_, ?_⟩
  · rw [h]
    exact List.mem_cons_self 1 [0]
  · exact Nat.lt_irrefl 1

end sketch.hash
